import Mathlib

/-!
# SDR common functions (`src/src/sdrcmn.c`): a shallow embedding

C `double` values are embedded as rationals (every finite double is a rational
and the properties below are stated for exact arithmetic), C `int` values as
integers, and arrays as functions from the index to the element.
-/

namespace Sdrcmn

/-! ## Shared conversions -/

/-- The C conversion `(int)x` of a double: truncation toward zero. -/
def ctrunc (x : ℚ) : ℤ := if 0 ≤ x then ⌊x⌋ else ⌈x⌉

/-- The C conversion of an `int` expression to `short` on a two's complement machine:
the value is wrapped into `[-32768, 32767]`. -/
def toShort (v : ℤ) : ℤ := (v + 32768) % 65536 - 32768

/-! ## `mixcarr` -/

/-- The `CDIV` constant: carrier lookup table size (one cycle). -/
def CDIV : ℚ := 32

/-- The `CSCALE` constant: carrier lookup table scale. -/
def CSCALE : ℚ := 1.0 / 32.0

/-- The `DPI` constant of `mixcarr`: `(3.1415926535897932*2.0)`. -/
def DPI : ℚ := 3.1415926535897932 * 2.0

/-- The data type argument of `mixcarr`: `DTYPEI` (real), `DTYPEIQ` (complex
interleaved), or any other value, for which neither loop of `mixcarr` runs.
`DTYPEI` and `DTYPEIQ` are distinct constants of `measurement_engine.h`. -/
inductive DType where
  | DTYPEI
  | DTYPEIQ
  | other
  deriving DecidableEq, Repr

/-- The table index `((int)phi)&CMASK`: on a two's complement `int` the mask `0x1F`
keeps the low five bits, that is, the remainder modulo 32 in `[0, 32)`. -/
def carrIndex (phi : ℚ) : ℤ := ctrunc phi % 32

/-- The complex loop of `mixcarr`: `n` iterations starting at `data + p` with
phase `phi`; gives the written `(I, Q)` pairs and the phase after the loop. -/
def mixLoopIQ (cost sint : ℤ → ℤ) (data : ℕ → ℤ) (ps : ℚ) :
    ℕ → ℕ → ℚ → List (ℤ × ℤ) × ℚ
  | 0, _, phi => ([], phi)
  | n + 1, p, phi =>
    let index := carrIndex phi
    let r := mixLoopIQ cost sint data ps n (p + 2) (phi + ps)
    ((toShort (cost index * data p - sint index * data (p + 1)),
      toShort (sint index * data p + cost index * data (p + 1))) :: r.1, r.2)

/-- The real loop of `mixcarr`: `n` iterations starting at `data + p` with
phase `phi`; gives the written `(I, Q)` pairs and the phase after the loop. -/
def mixLoopI (cost sint : ℤ → ℤ) (data : ℕ → ℤ) (ps : ℚ) :
    ℕ → ℕ → ℚ → List (ℤ × ℤ) × ℚ
  | 0, _, phi => ([], phi)
  | n + 1, p, phi =>
    let index := carrIndex phi
    let r := mixLoopI cost sint data ps n (p + 1) (phi + ps)
    ((toShort (cost index * data p), toShort (sint index * data p)) :: r.1, r.2)

/-- The loop `while(prem>DPI) prem-=DPI;`. -/
def phaseRem (prem : ℚ) : ℚ :=
  if DPI < prem then phaseRem (prem - DPI) else prem
termination_by (⌈prem / DPI⌉).toNat
decreasing_by
  have hD : (0 : ℚ) < DPI := by norm_num [DPI]
  have h1 : (prem - DPI) / DPI = prem / DPI - 1 := by field_simp
  rw [h1, Int.ceil_sub_one]
  have h2 : (1 : ℚ) < prem / DPI := by rw [lt_div_iff₀ hD]; linarith
  have h3 : (1 : ℤ) < ⌈prem / DPI⌉ := by
    rw [Int.lt_ceil]; exact_mod_cast h2
  omega

/-- The function `mixcarr`, given the carrier tables `cost`, `sint` (the static
arrays, filled on first use), the sample array `data`, the data type, the
sampling interval `ti`, the sample count `n`, the carrier frequency `freq` and
the initial phase `phi0`. The result is the list of `(I, Q)` values written to
`II[i]`, `QQ[i]` and the returned phase remainder. -/
def mixcarr (cost sint : ℤ → ℤ) (data : ℕ → ℤ) (dtype : DType) (ti : ℚ) (n : ℤ)
    (freq phi0 : ℚ) : List (ℤ × ℤ) × ℚ :=
  let phi := phi0 * CDIV / DPI
  let ps := freq * CDIV * ti
  let r :=
    match dtype with
    | DType.DTYPEIQ => mixLoopIQ cost sint data ps n.toNat 0 phi
    | DType.DTYPEI => mixLoopI cost sint data ps n.toNat 0 phi
    | DType.other => ([], phi)
  (r.1, phaseRem (r.2 * DPI / CDIV))

/-- The number of `char` elements of `data` that `a` samples occupy: the data
pointer of a call that continues after `a` samples is `data + sampleOffset dtype a`. -/
def sampleOffset (dtype : DType) (a : ℤ) : ℕ :=
  match dtype with
  | DType.DTYPEIQ => 2 * a.toNat
  | _ => a.toNat

/-- The value stored in `cost[i]` by the table initialisation of `mixcarr`:
`(short)floor((cos(DPI/CDIV*i)/CSCALE+0.5))`, with the real cosine. -/
noncomputable def initCost (i : ℤ) : ℤ :=
  toShort ⌊Real.cos ((DPI : ℝ) / (CDIV : ℝ) * (i : ℝ)) / (CSCALE : ℝ) + 0.5⌋

/-- The value stored in `sint[i]` by the table initialisation of `mixcarr`:
`(short)floor((sin(DPI/CDIV*i)/CSCALE+0.5))`, with the real sine. -/
noncomputable def initSint (i : ℤ) : ℤ :=
  toShort ⌊Real.sin ((DPI : ℝ) / (CDIV : ℝ) * (i : ℝ)) / (CSCALE : ℝ) + 0.5⌋

/-- A loop of the shape shared by the two loops of `mixcarr`: the body writes
`f index p` and advances the data pointer by `s`. Used only to state the lemmas
on `mixLoopI` and `mixLoopIQ` once. -/
def mixLoopG (f : ℤ → ℕ → ℤ × ℤ) (s : ℕ) (ps : ℚ) : ℕ → ℕ → ℚ → List (ℤ × ℤ) × ℚ
  | 0, _, phi => ([], phi)
  | n + 1, p, phi =>
    (f (carrIndex phi) p :: (mixLoopG f s ps n (p + s) (phi + ps)).1,
      (mixLoopG f s ps n (p + s) (phi + ps)).2)

/-! ## `rescode` -/

/-- The loop of `rescode`: `k` iterations from offset `coff`; each iteration
wraps the offset once (`if (coff>=len) coff-=len;`), writes `code[(int)coff]`
and advances the offset by `ci`. Gives the written symbols and the offset after
the loop. -/
def rescodeLoop (code : ℤ → ℤ) (len : ℤ) (ci : ℚ) : ℕ → ℚ → List ℤ × ℚ
  | 0, coff => ([], coff)
  | k + 1, coff =>
    let coff1 := if coff ≥ (len : ℚ) then coff - len else coff
    let r := rescodeLoop code len ci k (coff1 + ci)
    (code (ctrunc coff1) :: r.1, r.2)

/-- The function `rescode`: the symbols written to `rcode[0 .. n+2*smax)` and the
returned code remainder. -/
def rescode (code : ℤ → ℤ) (len : ℤ) (coff : ℚ) (smax : ℤ) (ci : ℚ) (n : ℤ) :
    List ℤ × ℚ :=
  let coff1 := coff - smax * ci
  let coff2 := coff1 - ⌊coff1 / len⌋ * len
  let r := rescodeLoop code len ci (n + 2 * smax).toNat coff2
  (r.1, r.2 - smax * ci)

/-- The floor-based remainder of `x` modulo `len`, in `[0, len)` for `len ≥ 1`:
the normalisation `coff-=floor(coff/len)*len` of `rescode`. -/
def floorMod (x : ℚ) (len : ℤ) : ℚ := x - ⌊x / len⌋ * len

/-! ## `maxvd` and `meanvd` -/

/-- The sample array with the given elements (0 beyond the end). -/
def arrayOf (l : List ℚ) : ℕ → ℚ := fun i => l.getD i 0

/-- The inclusion test of the loops of `maxvd` and `meanvd` at index `i`. -/
def included (exinds exinde : ℤ) (i : ℕ) : Prop :=
  (exinds ≤ exinde ∧ ((i : ℤ) < exinds ∨ (i : ℤ) > exinde)) ∨
    (exinds > exinde ∧ ((i : ℤ) < exinds ∧ (i : ℤ) > exinde))

instance (exinds exinde : ℤ) (i : ℕ) : Decidable (included exinds exinde i) := by
  unfold included; infer_instance

/-- The body of the loop of `maxvd` at index `i`, on the state `(max, *ind)`. -/
def maxvdStep (data : ℕ → ℚ) (exinds exinde : ℤ) (st : ℚ × ℕ) (i : ℕ) : ℚ × ℕ :=
  if (exinds ≤ exinde ∧ ((i : ℤ) < exinds ∨ (i : ℤ) > exinde)) ∨
      (exinds > exinde ∧ ((i : ℤ) < exinds ∧ (i : ℤ) > exinde)) then
    if st.1 < data i then (data i, i) else st
  else st

/-- The function `maxvd`: the returned maximum and the index stored in `*ind`.
The state starts at `(data[0], 0)` and the loop runs over `i = 1, …, n-1`. -/
def maxvd (data : ℕ → ℚ) (n : ℕ) (exinds exinde : ℤ) : ℚ × ℕ :=
  (List.range' 1 (n - 1)).foldl (maxvdStep data exinds exinde) (data 0, 0)

/-- The body of the loop of `meanvd` at index `i`, on the state `(mean, ne)`. -/
def meanvdStep (data : ℕ → ℚ) (exinds exinde : ℤ) (st : ℚ × ℤ) (i : ℕ) : ℚ × ℤ :=
  if exinds ≤ exinde ∧ ((i : ℤ) < exinds ∨ (i : ℤ) > exinde) then (st.1 + data i, st.2)
  else if exinds > exinde ∧ ((i : ℤ) < exinds ∧ (i : ℤ) > exinde) then (st.1 + data i, st.2)
  else (st.1, st.2 + 1)

/-- The function `meanvd`: `mean/(n-ne)` after the loop over `i = 0, …, n-1`.
(Where `n-ne` is zero the C division gives no number; the rational division
gives 0 there.) -/
def meanvd (data : ℕ → ℚ) (n : ℕ) (exinds exinde : ℤ) : ℚ :=
  let r := (List.range n).foldl (meanvdStep data exinds exinde) (0, 0)
  r.1 / (((n : ℤ) - r.2 : ℤ) : ℚ)

/-! ## `interp1` -/

/-- The array with the given elements at the indices `0, 1, …` (0 elsewhere). -/
def intArrayOf (l : List ℚ) : ℤ → ℚ := fun i => if 0 ≤ i then l.getD i.toNat 0 else 0

/-- The binary search loop of `interp1`, `while (m-k!=1) { … }`, with a bound
`fuel` on the number of times the loop condition is evaluated; `none` when the
bound is reached. -/
def searchLoop (xx : ℤ → ℚ) (t : ℚ) : ℕ → ℤ → ℤ → Option (ℤ × ℤ)
  | 0, _, _ => none
  | fuel + 1, k, m =>
    if m - k ≠ 1 then
      let i := (k + m).tdiv 2
      if t < xx (i - 1) then searchLoop xx t fuel k i else searchLoop xx t fuel i m
    else some (k, m)

/-- The window selection of `interp1` for `n ≥ 3` on the sorted copy `xx`: the
first and last index `(k, m)` of the interpolation window. The search loop gets
the bound `n`, which it never reaches (see `searchLoop_some`). -/
def interp1Window (xx : ℤ → ℚ) (n : ℤ) (t : ℚ) : Option (ℤ × ℤ) :=
  if t ≤ xx 1 then some (0, 2)
  else if t ≥ xx (n - 2) then some (n - 3, n - 1)
  else
    (searchLoop xx t n.toNat 1 n).map fun km =>
      let k := km.1 - 1
      let m := km.2 - 1
      if |t - xx k| < |t - xx m| then (k - 1, m) else (k, m + 1)

/-- The indices `k, k+1, …, m` visited by `for (i=k;i<=m;i++)`. -/
def indexRange (k m : ℤ) : List ℤ :=
  (List.range (m - k + 1).toNat).map fun j => k + (j : ℤ)

/-- The Lagrange sum of `interp1` over the window `k … m`. -/
def lagrange (xx yy : ℤ → ℚ) (t : ℚ) (k m : ℤ) : ℚ :=
  (indexRange k m).foldl
    (fun z i =>
      z + (indexRange k m).foldl
        (fun s j => if j ≠ i then s * (t - xx j) / (xx i - xx j) else s) 1 * yy i)
    0

/-- The function `interp1`. For `n ≥ 3` the copies `xx`, `yy` are the arrays
themselves, or the arrays reversed when `x[0] > x[n-1]`. -/
def interp1 (x y : ℤ → ℚ) (n : ℤ) (t : ℚ) : Option ℚ :=
  if n < 1 then some 0
  else if n = 1 then some (y 0)
  else if n = 2 then some ((y 0 * (t - x 1) - y 1 * (t - x 0)) / (x 0 - x 1))
  else
    let xx : ℤ → ℚ := if x 0 > x (n - 1) then fun k => x (n - 1 - k) else x
    let yy : ℤ → ℚ := if x 0 > x (n - 1) then fun k => y (n - 1 - k) else y
    (interp1Window xx n t).map fun km => lagrange xx yy t km.1 km.2

/-! ## `ind2sub` and `cpxpspec` -/

/-- The value of an `int` expression on a 32-bit two's complement machine: the
mathematical value wrapped into `[-2^31, 2^31)`. -/
def toInt32 (v : ℤ) : ℤ := (v + 2147483648) % 4294967296 - 2147483648

/-- The function `ind2sub`: `(*subx, *suby) = (ind%nx, ny*ind/(nx*ny))`, with the
C remainder and quotient (truncating) and 32-bit products. -/
def ind2sub (ind nx ny : ℤ) : ℤ × ℤ :=
  (ind.tmod nx, (toInt32 (ny * ind)).tdiv (toInt32 (nx * ny)))

/-- The function `cpxpspec`, given the transform `cpxfft` applied in place to the
block `cpx` of `n` interleaved complex values (`cpx[2*i]` real part,
`cpx[2*i+1]` imaginary part): the block after the call and the power spectrum
buffer after the call. -/
def cpxpspec (cpxfft : ℤ → (ℕ → ℚ) → (ℕ → ℚ)) (cpx : ℕ → ℚ) (n : ℤ) (flagsum : ℤ)
    (pspec : ℕ → ℚ) : (ℕ → ℚ) × (ℕ → ℚ) :=
  let p := cpxfft n cpx
  if flagsum ≠ 0 then
    (p, (List.range n.toNat).foldl
      (fun ps i => Function.update ps i (ps i + (p (2 * i) * p (2 * i) + p (2 * i + 1) * p (2 * i + 1))))
      pspec)
  else
    (p, (List.range n.toNat).foldl
      (fun ps i => Function.update ps i (p (2 * i) * p (2 * i) + p (2 * i + 1) * p (2 * i + 1)))
      pspec)

/-! ## Lemmas on the mixer loops -/

theorem mixLoopI_eq (cost sint : ℤ → ℤ) (data : ℕ → ℤ) (ps : ℚ) (n p : ℕ) (phi : ℚ) :
    mixLoopI cost sint data ps n p phi =
      mixLoopG (fun index q => (toShort (cost index * data q), toShort (sint index * data q)))
        1 ps n p phi := by
  induction n generalizing p phi with
  | zero => rfl
  | succ n ih => simp only [mixLoopI, mixLoopG, ih]

theorem mixLoopIQ_eq (cost sint : ℤ → ℤ) (data : ℕ → ℤ) (ps : ℚ) (n p : ℕ) (phi : ℚ) :
    mixLoopIQ cost sint data ps n p phi =
      mixLoopG (fun index q => (toShort (cost index * data q - sint index * data (q + 1)),
        toShort (sint index * data q + cost index * data (q + 1)))) 2 ps n p phi := by
  induction n generalizing p phi with
  | zero => rfl
  | succ n ih => simp only [mixLoopIQ, mixLoopG, ih]

theorem mixLoopG_phase (f : ℤ → ℕ → ℤ × ℤ) (s : ℕ) (ps : ℚ) (n p : ℕ) (phi : ℚ) :
    (mixLoopG f s ps n p phi).2 = phi + n * ps := by
  induction n generalizing p phi with
  | zero => simp [mixLoopG]
  | succ n ih => simp only [mixLoopG, ih]; push_cast; ring

theorem mixLoopG_length (f : ℤ → ℕ → ℤ × ℤ) (s : ℕ) (ps : ℚ) (n p : ℕ) (phi : ℚ) :
    (mixLoopG f s ps n p phi).1.length = n := by
  induction n generalizing p phi with
  | zero => simp [mixLoopG]
  | succ n ih => simp only [mixLoopG, List.length_cons, ih]

/-- Running the loop for `a + b` samples is running it for `a` and then for `b`
from the pointer and phase reached. -/
theorem mixLoopG_add (f : ℤ → ℕ → ℤ × ℤ) (s : ℕ) (ps : ℚ) (a b p : ℕ) (phi : ℚ) :
    (mixLoopG f s ps (a + b) p phi).1 =
      (mixLoopG f s ps a p phi).1 ++ (mixLoopG f s ps b (p + a * s) (phi + a * ps)).1 := by
  induction a generalizing p phi with
  | zero => simp [mixLoopG]
  | succ a ih =>
    have h : a + 1 + b = (a + b) + 1 := by omega
    rw [h]
    have e1 : p + s + a * s = p + (a + 1) * s := by ring
    have e2 : phi + ps + (a : ℚ) * ps = phi + ((a + 1 : ℕ) : ℚ) * ps := by push_cast; ring
    simp only [mixLoopG, ih, List.cons_append, e1, e2]

/-- Moving the data pointer is reading a shifted array. -/
theorem mixLoopG_shift (f : ℤ → ℕ → ℤ × ℤ) (s : ℕ) (ps : ℚ) (n p q : ℕ) (phi : ℚ) :
    (mixLoopG (fun index r => f index (r + q)) s ps n p phi).1 =
      (mixLoopG f s ps n (p + q) phi).1 := by
  induction n generalizing p phi with
  | zero => simp [mixLoopG]
  | succ n ih =>
    simp only [mixLoopG, ih]
    congr 3
    omega

/-- The written values depend on the phase only through the table indices. -/
theorem mixLoopG_congr (f : ℤ → ℕ → ℤ × ℤ) (s : ℕ) (ps : ℚ) (n p : ℕ) (phi phi' : ℚ)
    (h : ∀ j : ℕ, j < n → carrIndex (phi + j * ps) = carrIndex (phi' + j * ps)) :
    (mixLoopG f s ps n p phi).1 = (mixLoopG f s ps n p phi').1 := by
  induction n generalizing p phi phi' with
  | zero => simp [mixLoopG]
  | succ n ih =>
    simp only [mixLoopG]
    have h0 := h 0 (by omega)
    simp only [Nat.cast_zero, zero_mul, add_zero] at h0
    rw [h0, ih (p + s) (phi + ps) (phi' + ps)]
    intro j hj
    have hj1 := h (j + 1) (by omega)
    push_cast at hj1
    have e1 : phi + ps + j * ps = phi + (j + 1) * ps := by ring
    have e2 : phi' + ps + j * ps = phi' + (j + 1) * ps := by ring
    rw [e1, e2]; exact hj1

theorem DPI_pos : (0 : ℚ) < DPI := by norm_num [DPI]

/-- The loop `while(prem>DPI) prem-=DPI;` leaves a value not above `DPI`
unchanged, and otherwise subtracts a whole number of cycles and ends in `(0, DPI]`. -/
theorem phaseRem_spec (prem : ℚ) :
    (prem ≤ DPI → phaseRem prem = prem) ∧
      (DPI < prem → ∃ k : ℕ, phaseRem prem = prem - k * DPI ∧ 0 < phaseRem prem) := by
  induction prem using phaseRem.induct with
  | case1 x hx ih =>
    refine ⟨fun h => absurd hx (not_lt.mpr h), fun _ => ?_⟩
    rw [phaseRem, if_pos hx]
    by_cases h2 : DPI < x - DPI
    · obtain ⟨k, hk, hpos⟩ := ih.2 h2
      exact ⟨k + 1, by rw [hk]; push_cast; ring, hpos⟩
    · rw [ih.1 (not_lt.mp h2)]
      exact ⟨1, by push_cast; ring, by linarith⟩
  | case2 x hx =>
    refine ⟨fun _ => ?_, fun h => absurd h hx⟩
    rw [phaseRem, if_neg hx]

/-- The table index is unchanged by whole cycles as long as the phase stays
non-negative, where truncation is the floor. -/
theorem carrIndex_sub_cycles (x : ℚ) (k : ℕ) (h : 0 ≤ x - 32 * k) :
    carrIndex (x - 32 * k) = carrIndex x := by
  have hx : 0 ≤ x := by
    have : (0 : ℚ) ≤ 32 * k := by positivity
    linarith
  have e : x - 32 * (k : ℚ) = x - ((32 * k : ℤ) : ℚ) := by push_cast; ring
  unfold carrIndex ctrunc
  rw [if_pos h, if_pos hx, e, Int.floor_sub_int]
  omega

/-- Resuming a loop from the returned phase remainder, converted back to table
units, writes the same values as resuming from the phase itself, when the phase
step is non-negative or when nothing was subtracted. -/
theorem mixLoopG_resume (f : ℤ → ℕ → ℤ × ℤ) (s : ℕ) (ps : ℚ) (b p : ℕ) (x : ℚ)
    (h : 0 ≤ ps ∨ x * DPI / CDIV ≤ DPI) :
    (mixLoopG f s ps b p (phaseRem (x * DPI / CDIV) * CDIV / DPI)).1 =
      (mixLoopG f s ps b p x).1 := by
  have hD := DPI_pos
  have hC : (0 : ℚ) < CDIV := by norm_num [CDIV]
  by_cases hx : x * DPI / CDIV ≤ DPI
  · rw [(phaseRem_spec _).1 hx]
    have e : x * DPI / CDIV * CDIV / DPI = x := by field_simp
    rw [e]
  · have hps : 0 ≤ ps := h.resolve_right hx
    obtain ⟨k, hk, hpos⟩ := (phaseRem_spec _).2 (not_le.mp hx)
    have e : phaseRem (x * DPI / CDIV) * CDIV / DPI = x - 32 * k := by
      rw [hk]; unfold CDIV; field_simp; ring
    have hpos2 : 0 < x - 32 * (k : ℚ) := by
      rw [← e]; exact div_pos (mul_pos hpos hC) hD
    rw [e]
    apply mixLoopG_congr
    intro j _
    have hj : (0 : ℚ) ≤ j * ps := mul_nonneg (by positivity) hps
    have e2 : x - 32 * (k : ℚ) + j * ps = (x + j * ps) - 32 * k := by ring
    rw [e2]
    exact carrIndex_sub_cycles _ _ (by linarith)

theorem initCost_zero : initCost 0 = 32 := by
  unfold initCost
  have e : Real.cos ((DPI : ℝ) / (CDIV : ℝ) * ((0 : ℤ) : ℝ)) / (CSCALE : ℝ) + 0.5
      = ((32 : ℤ) : ℝ) + 1 / 2 := by
    simp [CSCALE]; norm_num
  rw [e]
  have : ⌊((32 : ℤ) : ℝ) + 1 / 2⌋ = 32 := by
    rw [Int.floor_int_add]
    have : ⌊(1 / 2 : ℝ)⌋ = 0 := by rw [Int.floor_eq_iff]; norm_num
    rw [this]; rfl
  rw [this]; rfl

theorem initCost_last : -32 ≤ initCost 31 ∧ initCost 31 ≤ 31 := by
  obtain ⟨d, hd⟩ : ∃ d : ℝ, d = 2 * Real.pi - 6.2831853071795864 / 32 * 31 := ⟨_, rfl⟩
  have hx : ((DPI : ℝ) / (CDIV : ℝ) * ((31 : ℤ) : ℝ)) = 2 * Real.pi - d := by
    rw [hd]; simp [DPI, CDIV]; norm_num
  have hpl := Real.pi_gt_d6
  have hpu := Real.pi_lt_d6
  have hd1 : 196 / 1000 < d := by rw [hd]; norm_num at hpl ⊢; linarith
  have hd2 : d < 197 / 1000 := by rw [hd]; norm_num at hpu ⊢; linarith
  have hcb := Real.cos_bound (x := d) (by rw [abs_le]; constructor <;> linarith)
  have habs : |d| = d := abs_of_pos (by linarith)
  rw [habs, abs_le] at hcb
  have hsq1 : (196 / 1000) ^ 2 ≤ d ^ 2 := by nlinarith
  have hsq2 : d ^ 2 ≤ (197 / 1000) ^ 2 := by nlinarith
  have hq : d ^ 4 ≤ (197 / 1000) ^ 2 * (197 / 1000) ^ 2 := by
    have : d ^ 4 = d ^ 2 * d ^ 2 := by ring
    rw [this]
    have h0 : 0 ≤ d ^ 2 := by positivity
    nlinarith
  have hcos : Real.cos d < 63 / 64 := by
    norm_num at hsq1 hq
    nlinarith [hcb.2]
  have hcos2 : -1 ≤ Real.cos d := Real.neg_one_le_cos d
  have hfl : -32 ≤ ⌊Real.cos d / (CSCALE : ℝ) + 0.5⌋ ∧
      ⌊Real.cos d / (CSCALE : ℝ) + 0.5⌋ ≤ 31 := by
    have hs : ((CSCALE : ℚ) : ℝ) = 1 / 32 := by simp [CSCALE]; norm_num
    rw [hs]
    constructor
    · rw [Int.le_floor]; push_cast; norm_num; linarith
    · have : ⌊Real.cos d / (1 / 32) + 0.5⌋ < 32 := by
        rw [Int.floor_lt]; push_cast; norm_num; linarith
      omega
  unfold initCost
  rw [hx, Real.cos_two_pi_sub]
  unfold toShort
  omega

/-! ### C1: call-boundary invariance of the mixer -/

/-- C1 (as amended): for all tables, sample blocks, data types, `a ≥ 0`, `b ≥ 0`,
sampling intervals and initial phases, mixing samples `[0,a)` and then `[a,a+b)`
from the returned phase writes exactly the values of one call on `[0,a+b)`,
provided the phase step is non-negative (`freq*ti ≥ 0`) or the phase reached by
the first call does not exceed `DPI`. -/
theorem mixcarr_call_boundary (cost sint : ℤ → ℤ) (data : ℕ → ℤ) (dtype : DType)
    (ti freq phi0 : ℚ) (a b : ℤ) (ha : 0 ≤ a) (hb : 0 ≤ b)
    (h : 0 ≤ freq * ti ∨ phi0 + DPI * freq * ti * a ≤ DPI) :
    (mixcarr cost sint data dtype ti (a + b) freq phi0).1 =
      (mixcarr cost sint data dtype ti a freq phi0).1 ++
        (mixcarr cost sint (fun i => data (i + sampleOffset dtype a)) dtype ti b freq
          (mixcarr cost sint data dtype ti a freq phi0).2).1 := by
  have hD := DPI_pos
  have hab : (a + b).toNat = a.toNat + b.toNat := Int.toNat_add ha hb
  have hcast : ((a.toNat : ℕ) : ℚ) = (a : ℚ) := by
    have : ((a.toNat : ℕ) : ℤ) = a := Int.toNat_of_nonneg ha
    exact_mod_cast this
  have h2 : 0 ≤ freq * CDIV * ti ∨
      (phi0 * CDIV / DPI + (a.toNat : ℚ) * (freq * CDIV * ti)) * DPI / CDIV ≤ DPI := by
    rcases h with h | h
    · left
      have : freq * CDIV * ti = 32 * (freq * ti) := by unfold CDIV; ring
      rw [this]; linarith
    · right
      have : (phi0 * CDIV / DPI + (a.toNat : ℚ) * (freq * CDIV * ti)) * DPI / CDIV
          = phi0 + DPI * freq * ti * a := by
        rw [hcast]; unfold CDIV; field_simp; ring
      rw [this]; exact h
  cases dtype with
  | DTYPEI =>
    simp only [mixcarr, mixLoopI_eq, mixLoopG_phase, hab, sampleOffset]
    rw [mixLoopG_add, mixLoopG_resume _ _ _ _ _ _ h2]
    rw [mixLoopG_shift (fun index q =>
      (toShort (cost index * data q), toShort (sint index * data q)))]
    simp
  | DTYPEIQ =>
    simp only [mixcarr, mixLoopIQ_eq, mixLoopG_phase, hab, sampleOffset]
    rw [mixLoopG_add, mixLoopG_resume _ _ _ _ _ _ h2]
    have e : (fun (index : ℤ) (q : ℕ) =>
        (toShort (cost index * data (q + 2 * a.toNat)
            - sint index * data (q + 1 + 2 * a.toNat)),
          toShort (sint index * data (q + 2 * a.toNat)
            + cost index * data (q + 1 + 2 * a.toNat)))) =
        (fun (index : ℤ) (r : ℕ) => (fun (index : ℤ) (q : ℕ) =>
          (toShort (cost index * data q - sint index * data (q + 1)),
            toShort (sint index * data q + cost index * data (q + 1)))) index
              (r + 2 * a.toNat)) := by
      funext index q
      have : q + 1 + 2 * a.toNat = q + 2 * a.toNat + 1 := by omega
      simp only [this]
    rw [e]
    congr 1
    symm
    refine (mixLoopG_shift (fun (index : ℤ) (q : ℕ) =>
      (toShort (cost index * data q - sint index * data (q + 1)),
        toShort (sint index * data q + cost index * data (q + 1)))) 2 _ _ 0
          (2 * a.toNat) _).trans ?_
    have : 0 + 2 * a.toNat = 0 + a.toNat * 2 := by omega
    rw [this]
  | other => simp [mixcarr]

/-- Witness for `mixcarr_call_boundary`: a real block mixed with a positive
carrier step, split after two samples. -/
theorem mixcarr_call_boundary_witness :
    (mixcarr initCost initSint (fun i => (i : ℤ) - 3) DType.DTYPEI (1 / 64) (2 + 3) 5 7).1 =
      (mixcarr initCost initSint (fun i => (i : ℤ) - 3) DType.DTYPEI (1 / 64) 2 5 7).1 ++
        (mixcarr initCost initSint
          (fun i => (fun i => (i : ℤ) - 3) (i + sampleOffset DType.DTYPEI 2))
          DType.DTYPEI (1 / 64) 3 5
          (mixcarr initCost initSint (fun i => (i : ℤ) - 3) DType.DTYPEI (1 / 64) 2 5 7).2).1 :=
  mixcarr_call_boundary initCost initSint (fun i => (i : ℤ) - 3) DType.DTYPEI (1 / 64) 5 7 2 3
    (by decide) (by decide) (Or.inl (by norm_num))

theorem carrIndex_of_nonneg (x : ℚ) (z : ℤ) (h0 : 0 ≤ x) (h1 : (z : ℚ) ≤ x) (h2 : x < z + 1) :
    carrIndex x = z % 32 := by
  unfold carrIndex ctrunc
  rw [if_pos h0, Int.floor_eq_iff.mpr ⟨h1, h2⟩]

theorem carrIndex_of_neg (x : ℚ) (z : ℤ) (h0 : x < 0) (h1 : (z : ℚ) - 1 < x) (h2 : x ≤ z) :
    carrIndex x = z % 32 := by
  unfold carrIndex ctrunc
  rw [if_neg (not_le.mpr h0), Int.ceil_eq_iff.mpr ⟨h1, h2⟩]

/-- C1 (counterexample): with the initialised tables, a real block of three samples
of value 1, `ti = 1/32`, `freq = -1` (phase step `-1` table unit) and
`phi0 = DPI*67/64` (table phase `33.5`), the single call uses the table indices
`1, 0, 31`, while the call on one sample returns `DPI/64` and the call on the
next two samples then uses the indices `0, 0`: the third `I` value differs. -/
theorem mixcarr_call_boundary_counterexample :
    (mixcarr initCost initSint (fun _ => 1) DType.DTYPEI (1 / 32) (1 + 2) (-1)
        (DPI * 67 / 64)).1 ≠
      (mixcarr initCost initSint (fun _ => 1) DType.DTYPEI (1 / 32) 1 (-1)
          (DPI * 67 / 64)).1 ++
        (mixcarr initCost initSint
          (fun i => (fun _ => 1) (i + sampleOffset DType.DTYPEI 1)) DType.DTYPEI (1 / 32) 2 (-1)
          (mixcarr initCost initSint (fun _ => 1) DType.DTYPEI (1 / 32) 1 (-1)
            (DPI * 67 / 64)).2).1 := by
  have hD := DPI_pos
  have hphi : DPI * 67 / 64 * CDIV / DPI = 67 / 2 := by
    unfold CDIV; field_simp; ring
  have hps : (-1 : ℚ) * CDIV * (1 / 32) = -1 := by norm_num [CDIV]
  have i1 : carrIndex (67 / 2) = 1 := carrIndex_of_nonneg _ 33 (by norm_num) (by norm_num) (by norm_num)
  have i2 : carrIndex (67 / 2 + -1) = 0 :=
    carrIndex_of_nonneg _ 32 (by norm_num) (by norm_num) (by norm_num)
  have i3 : carrIndex (67 / 2 + -1 + -1) = 31 :=
    carrIndex_of_nonneg _ 31 (by norm_num) (by norm_num) (by norm_num)
  have hrem : phaseRem ((67 / 2 + -1) * DPI / CDIV) = DPI / 64 := by
    have e : (67 / 2 + -1) * DPI / CDIV = DPI + DPI / 64 := by unfold CDIV; ring
    rw [e, phaseRem, if_pos (by linarith), phaseRem, if_neg (by linarith)]
    ring
  have hphi2 : DPI / 64 * CDIV / DPI = 1 / 2 := by
    unfold CDIV; field_simp; ring
  have j1 : carrIndex (1 / 2) = 0 := carrIndex_of_nonneg _ 0 (by norm_num) (by norm_num) (by norm_num)
  have j2 : carrIndex (1 / 2 + -1) = 0 :=
    carrIndex_of_neg _ 0 (by norm_num) (by norm_num) (by norm_num)
  have t1 : ((1 : ℤ) + 2).toNat = 3 := by decide
  have t2 : (1 : ℤ).toNat = 1 := by decide
  have t3 : (2 : ℤ).toNat = 2 := by decide
  simp only [mixcarr, hphi, hps, t1, t2, t3, mixLoopI, i1, i2, i3, hrem, hphi2, j1, j2]
  intro h
  have h3 := congrArg (fun l => (l.getD 2 (0, 0)).1) h
  simp only [List.singleton_append, List.getD_cons_succ, List.getD_cons_zero, mul_one,
    initCost_zero] at h3
  have hb := initCost_last
  unfold toShort at h3
  omega

/-! ## Lemmas on `rescode`, and C2, C3, C4 -/

theorem floorMod_range (x : ℚ) (len : ℤ) (hl : 1 ≤ len) :
    0 ≤ floorMod x len ∧ floorMod x len < len := by
  have hl' : (0 : ℚ) < len := by exact_mod_cast (by omega : (0 : ℤ) < len)
  unfold floorMod
  have h1 := Int.floor_le (x / len)
  have h2 := Int.lt_floor_add_one (x / len)
  rw [le_div_iff₀ hl'] at h1
  rw [div_lt_iff₀ hl'] at h2
  constructor <;> nlinarith

theorem floorMod_unique (x z : ℚ) (len m : ℤ) (hl : 1 ≤ len) (h0 : 0 ≤ z) (h1 : z < len)
    (h : z = x - m * len) : floorMod x len = z := by
  have hl' : (0 : ℚ) < len := by exact_mod_cast (by omega : (0 : ℤ) < len)
  unfold floorMod
  have : ⌊x / (len : ℚ)⌋ = m := by
    rw [Int.floor_eq_iff, le_div_iff₀ hl', div_lt_iff₀ hl']
    constructor <;> nlinarith
  rw [this, h]

theorem floorMod_sub_mul (x : ℚ) (len m : ℤ) (hl : 1 ≤ len) :
    floorMod (x - m * len) len = floorMod x len := by
  obtain ⟨h0, h1⟩ := floorMod_range x len hl
  apply floorMod_unique _ _ len (⌊x / (len : ℚ)⌋ - m) hl h0 h1
  unfold floorMod; push_cast; ring

/-- The closed form of the resampling loop: from an offset in `[0, 2*len)` and
with `0 ≤ ci ≤ len`, sample `j` is the code at the truncated floor-remainder of
`coff + j*ci`, and the final offset is `coff + k*ci` up to whole code lengths. -/
theorem rescodeLoop_spec (code : ℤ → ℤ) (len : ℤ) (ci : ℚ) (hl : 1 ≤ len)
    (hci : 0 ≤ ci) (hci2 : ci ≤ len) (k : ℕ) (coff : ℚ) (h0 : 0 ≤ coff)
    (h1 : coff < 2 * len) :
    (rescodeLoop code len ci k coff).1 =
        (List.range k).map (fun (j : ℕ) => code (ctrunc (floorMod (coff + (j : ℚ) * ci) len))) ∧
      0 ≤ (rescodeLoop code len ci k coff).2 ∧
      (rescodeLoop code len ci k coff).2 < 2 * len ∧
      ∃ m : ℤ, (rescodeLoop code len ci k coff).2 = coff + k * ci - m * len := by
  induction k generalizing coff with
  | zero => exact ⟨by simp [rescodeLoop], by simpa [rescodeLoop] using h0,
      by simpa [rescodeLoop] using h1, 0, by simp [rescodeLoop]⟩
  | succ k ih =>
    obtain ⟨w, e, hw, hw0, hw1, hw2⟩ : ∃ (w : ℚ) (e : ℤ),
        (if coff ≥ (len : ℚ) then coff - len else coff) = w ∧ 0 ≤ w ∧ w < len ∧
          w = coff - e * len := by
      by_cases hc : coff ≥ (len : ℚ)
      · exact ⟨coff - len, 1, by rw [if_pos hc], by linarith, by linarith, by push_cast; ring⟩
      · exact ⟨coff, 0, by rw [if_neg hc], h0, by linarith [not_le.mp hc], by simp⟩
    obtain ⟨ih1, ih2, ih3, m, ih4⟩ := ih (w + ci) (by linarith) (by linarith)
    simp only [rescodeLoop, hw]
    refine ⟨?_, ih2, ih3, m + e, ?_⟩
    · rw [ih1, List.range_succ_eq_map, List.map_cons, List.map_map]
      congr 1
      · have : floorMod (coff + ((0 : ℕ) : ℚ) * ci) len = w := by
          apply floorMod_unique _ _ len e hl hw0 hw1
          rw [hw2]; push_cast; ring
        rw [this]
      · apply List.map_congr_left
        intro j _
        simp only [Function.comp]
        have : w + ci + (j : ℚ) * ci = (coff + ((j + 1 : ℕ) : ℚ) * ci) - e * len := by
          rw [hw2]; push_cast; ring
        rw [this, floorMod_sub_mul _ _ _ hl]
    · rw [ih4, hw2]; push_cast; ring

/-- The closed form of `rescode` for `len ≥ 1` and `0 ≤ ci ≤ len`. -/
theorem rescode_spec (code : ℤ → ℤ) (len : ℤ) (coff : ℚ) (smax : ℤ) (ci : ℚ) (n : ℤ)
    (hl : 1 ≤ len) (hci : 0 ≤ ci) (hci2 : ci ≤ len) :
    (rescode code len coff smax ci n).1 =
        (List.range (n + 2 * smax).toNat).map
          (fun (j : ℕ) => code (ctrunc (floorMod (coff - smax * ci + (j : ℚ) * ci) len))) ∧
      ∃ m : ℤ, (rescode code len coff smax ci n).2 =
        coff - 2 * smax * ci + ((n + 2 * smax).toNat : ℚ) * ci - m * len := by
  have hl' : (0 : ℚ) < len := by exact_mod_cast (by omega : (0 : ℤ) < len)
  obtain ⟨r0, r1⟩ := floorMod_range (coff - smax * ci) len hl
  obtain ⟨h1, _, _, m, h4⟩ := rescodeLoop_spec code len ci hl hci hci2 (n + 2 * smax).toNat
    (floorMod (coff - smax * ci) len) r0 (by linarith)
  have hdef : rescode code len coff smax ci n =
      ((rescodeLoop code len ci (n + 2 * smax).toNat (floorMod (coff - smax * ci) len)).1,
        (rescodeLoop code len ci (n + 2 * smax).toNat (floorMod (coff - smax * ci) len)).2
          - smax * ci) := rfl
  rw [hdef]
  refine ⟨?_, m + ⌊(coff - smax * ci) / (len : ℚ)⌋, ?_⟩
  · rw [h1]
    apply List.map_congr_left
    intro j _
    have : floorMod (coff - smax * ci) len + (j : ℚ) * ci =
        (coff - smax * ci + (j : ℚ) * ci) - ⌊(coff - smax * ci) / (len : ℚ)⌋ * len := by
      unfold floorMod; ring
    rw [this, floorMod_sub_mul _ _ _ hl]
  · simp only [h4]
    unfold floorMod; push_cast; ring

/-- C3: resampling a code of length `L ≥ 1` with zero offset, no margin and
step `1.0` over `L` core samples writes exactly `L` symbols, and symbol `i` is
`code[i]`. -/
theorem rescode_identity (code : ℤ → ℤ) (L : ℤ) (hL : 1 ≤ L) :
    (rescode code L 0 0 1 L).1.length = L.toNat ∧
      ∀ i : ℕ, (i : ℤ) < L → (rescode code L 0 0 1 L).1.get? i = some (code i) := by
  have hL' : (1 : ℚ) ≤ L := by exact_mod_cast hL
  obtain ⟨h1, _⟩ := rescode_spec code L 0 0 1 L hL (by norm_num) hL'
  have hN : (L + 2 * 0).toNat = L.toNat := by simp
  rw [h1, hN]
  refine ⟨by simp, fun i hi => ?_⟩
  have hi' : i < L.toNat := by omega
  rw [List.get?_eq_getElem?, List.getElem?_map, List.getElem?_range hi']
  simp only [Option.map_some']
  have e : floorMod ((0 : ℚ) - ((0 : ℤ) : ℚ) * 1 + (i : ℚ) * 1) L = (i : ℚ) := by
    apply floorMod_unique _ _ L 0 hL (by positivity) (by exact_mod_cast hi)
    push_cast; ring
  rw [e]
  have : ctrunc (i : ℚ) = (i : ℤ) := by
    unfold ctrunc
    rw [if_pos (by positivity)]
    exact_mod_cast Int.floor_intCast (α := ℚ) (i : ℤ)
  rw [this]

/-- Witness for `rescode_identity`: a code of length 4. -/
theorem rescode_identity_witness :
    (rescode (fun i => 2 * i - 3) 4 0 0 1 4).1.length = (4 : ℤ).toNat ∧
      ∀ i : ℕ, (i : ℤ) < 4 →
        (rescode (fun i => 2 * i - 3) 4 0 0 1 4).1.get? i = some ((fun i => 2 * i - 3) (i : ℤ)) :=
  rescode_identity (fun i => 2 * i - 3) 4 (by decide)

/-- C4: for a code of length `L ≥ 1`, any initial offset, any margin `smax ≥ 0`
and an integer-valued step `0 ≤ ci ≤ L`, the offset returned for `n = L` core
samples differs from the initial offset by an integer multiple of `L`. -/
theorem rescode_integer_step (code : ℤ → ℤ) (L : ℤ) (coff : ℚ) (smax c : ℤ)
    (hL : 1 ≤ L) (hs : 0 ≤ smax) (hc0 : 0 ≤ c) (hc1 : c ≤ L) :
    ∃ m : ℤ, (rescode code L coff smax (c : ℚ) L).2 - coff = m * L := by
  obtain ⟨_, m, h2⟩ := rescode_spec code L coff smax (c : ℚ) L hL
    (by exact_mod_cast hc0) (by exact_mod_cast hc1)
  have hN : (((L + 2 * smax).toNat : ℕ) : ℚ) = (L : ℚ) + 2 * smax := by
    have : (((L + 2 * smax).toNat : ℕ) : ℤ) = L + 2 * smax :=
      Int.toNat_of_nonneg (by omega)
    exact_mod_cast this
  refine ⟨c - m, ?_⟩
  rw [h2, hN]; push_cast; ring

/-- Witness for `rescode_integer_step`: length 5, offset `-7/2`, margin 2, step 3. -/
theorem rescode_integer_step_witness :
    ∃ m : ℤ, (rescode (fun i => i) 5 (-7 / 2) 2 ((3 : ℤ) : ℚ) 5).2 - (-7 / 2) = m * (5 : ℤ) :=
  rescode_integer_step (fun i => i) 5 (-7 / 2) 2 3 (by decide) (by decide) (by decide)
    (by decide)

/-- C2: for a code of length `len ≥ 1`, any initial offset, any margin
`smax ≥ 0`, any step `0 ≤ ci ≤ len` and `a, b ≥ 0`: the output of the call for
`a` core samples is the elements `[0, a+2*smax)`, and the output of the call for
`b` core samples from the offset returned by the first call is the elements
`[a, a+b+2*smax)`, of the output of the single call for `a+b` core samples. -/
theorem rescode_call_boundary (code : ℤ → ℤ) (len : ℤ) (coff : ℚ) (smax : ℤ) (ci : ℚ)
    (a b : ℤ) (hl : 1 ≤ len) (hs : 0 ≤ smax) (hci : 0 ≤ ci) (hci2 : ci ≤ len)
    (ha : 0 ≤ a) (hb : 0 ≤ b) :
    (rescode code len coff smax ci a).1 =
        (rescode code len coff smax ci (a + b)).1.take (a + 2 * smax).toNat ∧
      (rescode code len (rescode code len coff smax ci a).2 smax ci b).1 =
        ((rescode code len coff smax ci (a + b)).1.drop a.toNat).take
          (b + 2 * smax).toNat := by
  obtain ⟨h1, m, h1r⟩ := rescode_spec code len coff smax ci a hl hci hci2
  obtain ⟨h2, _⟩ := rescode_spec code len (rescode code len coff smax ci a).2 smax ci b
    hl hci hci2
  obtain ⟨h3, _⟩ := rescode_spec code len coff smax ci (a + b) hl hci hci2
  have hNa : (((a + 2 * smax).toNat : ℕ) : ℚ) = (a : ℚ) + 2 * smax := by
    have : (((a + 2 * smax).toNat : ℕ) : ℤ) = a + 2 * smax :=
      Int.toNat_of_nonneg (by omega)
    exact_mod_cast this
  have hcast : ((a.toNat : ℕ) : ℚ) = (a : ℚ) := by
    have : ((a.toNat : ℕ) : ℤ) = a := Int.toNat_of_nonneg ha
    exact_mod_cast this
  have hsplit : (a + b + 2 * smax).toNat = a.toNat + (b + 2 * smax).toNat := by omega
  have hsplit2 : (a + b + 2 * smax).toNat = (a + 2 * smax).toNat + b.toNat := by omega
  constructor
  · rw [h1, h3, ← List.map_take, List.take_range]
    congr 2
    omega
  · rw [h2, h3, hsplit, List.range_add, List.map_append, List.drop_left' (by simp),
      List.take_of_length_le (by simp), List.map_map]
    apply List.map_congr_left
    intro j _
    simp only [Function.comp]
    have : (rescode code len coff smax ci a).2 - smax * ci + (j : ℚ) * ci =
        (coff - smax * ci + ((a.toNat + j : ℕ) : ℚ) * ci) - m * len := by
      rw [h1r, hNa]; push_cast; rw [hcast]; ring
    rw [this, floorMod_sub_mul _ _ _ hl]

/-- Witness for `rescode_call_boundary`: length 5, offset `-7/2`, margin 1,
step `3/4`, split 3 + 4. -/
theorem rescode_call_boundary_witness :
    (rescode (fun i => i) 5 (-7 / 2) 1 (3 / 4) 3).1 =
        (rescode (fun i => i) 5 (-7 / 2) 1 (3 / 4) (3 + 4)).1.take (3 + 2 * 1 : ℤ).toNat ∧
      (rescode (fun i => i) 5 (rescode (fun i => i) 5 (-7 / 2) 1 (3 / 4) 3).2 1 (3 / 4) 4).1 =
        ((rescode (fun i => i) 5 (-7 / 2) 1 (3 / 4) (3 + 4)).1.drop (3 : ℤ).toNat).take
          (4 + 2 * 1 : ℤ).toNat :=
  rescode_call_boundary (fun i => i) 5 (-7 / 2) 1 (3 / 4) 3 4 (by decide) (by decide)
    (by norm_num) (by norm_num) (by decide) (by decide)

/-! ## `maxvd` and `meanvd`: C5, C6, C7, C8 -/

/-- The state of `maxvd` after the indices `1, …, k`: the index is `0` or an
included index, it holds the value, the value bounds every counted index up to
`k`, and strictly bounds the counted indices before it. -/
theorem maxvd_fold_spec (data : ℕ → ℚ) (exinds exinde : ℤ) (k : ℕ) (st : ℚ × ℕ)
    (hst : (List.range' 1 k).foldl (maxvdStep data exinds exinde) (data 0, 0) = st) :
    st.2 ≤ k ∧ data st.2 = st.1 ∧ (st.2 = 0 ∨ included exinds exinde st.2) ∧
      (∀ i, i ≤ k → (i = 0 ∨ included exinds exinde i) → data i ≤ st.1) ∧
      (∀ i, i < st.2 → (i = 0 ∨ included exinds exinde i) → data i < st.1) := by
  induction k generalizing st with
  | zero =>
    rw [List.range'_zero, List.foldl_nil] at hst
    subst hst
    refine ⟨le_refl _, rfl, Or.inl rfl, ?_, ?_⟩
    · intro i hi _
      have : i = 0 := by omega
      rw [this]
    · intro i hi
      exact absurd hi (Nat.not_lt_zero i)
  | succ k ih =>
    rw [List.range'_1_concat, List.foldl_append, List.foldl_cons, List.foldl_nil] at hst
    obtain ⟨h1, h2, h3, h4, h5⟩ := ih _ rfl
    generalize (List.range' 1 k).foldl (maxvdStep data exinds exinde) (data 0, 0) = st0
      at hst h1 h2 h3 h4 h5
    have hk : 1 + k = k + 1 := by omega
    rw [hk] at hst
    subst hst
    unfold maxvdStep
    by_cases hinc : included exinds exinde (k + 1)
    · have hinc' := hinc
      unfold included at hinc'
      rw [if_pos hinc']
      by_cases hlt : st0.1 < data (k + 1)
      · rw [if_pos hlt]
        refine ⟨le_refl _, rfl, Or.inr hinc, ?_, ?_⟩
        · intro i hi hc
          rcases Nat.lt_or_ge i (k + 1) with h | h
          · exact le_of_lt (lt_of_le_of_lt (h4 i (by omega) hc) hlt)
          · have : i = k + 1 := by omega
            rw [this]
        · intro i hi hc
          exact lt_of_le_of_lt (h4 i (by omega) hc) hlt
      · rw [if_neg hlt]
        refine ⟨by omega, h2, h3, ?_, h5⟩
        intro i hi hc
        rcases Nat.lt_or_ge i (k + 1) with h | h
        · exact h4 i (by omega) hc
        · have : i = k + 1 := by omega
          rw [this]; exact not_lt.mp hlt
    · have hinc' := hinc
      unfold included at hinc'
      rw [if_neg hinc']
      refine ⟨by omega, h2, h3, ?_, h5⟩
      intro i hi hc
      rcases Nat.lt_or_ge i (k + 1) with h | h
      · exact h4 i (by omega) hc
      · have : i = k + 1 := by omega
        rw [this] at hc
        rcases hc with hc | hc
        · omega
        · exact absurd hc hinc

/-- C7: with the sentinel `start = end = -1`, `maxvd` on a non-empty array
returns the maximum of all `n` elements and stores the smallest index at which
that maximum occurs. -/
theorem maxvd_sentinel (data : ℕ → ℚ) (n : ℕ) (hn : 1 ≤ n) :
    (maxvd data n (-1) (-1)).2 < n ∧
      data (maxvd data n (-1) (-1)).2 = (maxvd data n (-1) (-1)).1 ∧
      (∀ i, i < n → data i ≤ (maxvd data n (-1) (-1)).1) ∧
      (∀ i, i < (maxvd data n (-1) (-1)).2 → data i < (maxvd data n (-1) (-1)).1) := by
  obtain ⟨h1, h2, _, h4, h5⟩ := maxvd_fold_spec data (-1) (-1) (n - 1) _ rfl
  have hall : ∀ i : ℕ, i = 0 ∨ included (-1) (-1) i := by
    intro i
    rcases Nat.eq_zero_or_pos i with h | h
    · exact Or.inl h
    · right; unfold included; left; constructor
      · exact le_refl _
      · right; omega
  unfold maxvd
  exact ⟨by omega, h2, fun i hi => h4 i (by omega) (hall i), fun i hi => h5 i hi (hall i)⟩

/-- Evaluation of `maxvd` on `[1,5,3,9,2]` with the sentinel: 9 at index 3. -/
theorem maxvd_sentinel_example : maxvd (arrayOf [1, 5, 3, 9, 2]) 5 (-1) (-1) = (9, 3) := by
  decide

/-- The state `(mean, ne)` of `meanvd` after the indices `0, …, k-1`: the sum of
the included elements and the number of indices not included. -/
theorem meanvd_fold_spec (data : ℕ → ℚ) (exinds exinde : ℤ) (k : ℕ) :
    (List.range k).foldl (meanvdStep data exinds exinde) (0, 0) =
      (∑ i in (Finset.range k).filter (fun i => included exinds exinde i), data i,
        (k : ℤ) - ((Finset.range k).filter (fun i => included exinds exinde i)).card) := by
  induction k with
  | zero => simp
  | succ k ih =>
    rw [List.range_succ, List.foldl_append, List.foldl_cons, List.foldl_nil, ih,
      Finset.range_succ]
    have hnm : k ∉ Finset.range k := Finset.not_mem_range_self
    by_cases hinc : included exinds exinde k
    · rw [Finset.filter_insert, if_pos hinc, Finset.sum_insert (by simp),
        Finset.card_insert_of_not_mem (by simp)]
      have hstep : ∀ st : ℚ × ℤ, meanvdStep data exinds exinde st k = (st.1 + data k, st.2) := by
        intro st
        unfold meanvdStep
        unfold included at hinc
        rcases hinc with h | h
        · rw [if_pos h]
        · have h1 : ¬(exinds ≤ exinde ∧ ((k : ℤ) < exinds ∨ (k : ℤ) > exinde)) := by
            intro hh; omega
          rw [if_neg h1, if_pos h]
      rw [hstep]
      ext
      · simp only; ring
      · simp only; push_cast; ring
    · rw [Finset.filter_insert, if_neg hinc]
      have hstep : ∀ st : ℚ × ℤ, meanvdStep data exinds exinde st k = (st.1, st.2 + 1) := by
        intro st
        unfold meanvdStep
        unfold included at hinc
        rw [if_neg (fun h => hinc (Or.inl h)), if_neg (fun h => hinc (Or.inr h))]
      rw [hstep]
      ext
      · simp only
      · simp only; push_cast; ring

/-- The value of `meanvd`: the sum of the included elements over their number. -/
theorem meanvd_spec (data : ℕ → ℚ) (n : ℕ) (exinds exinde : ℤ) :
    meanvd data n exinds exinde =
      (∑ i in (Finset.range n).filter (fun i => included exinds exinde i), data i) /
        (((Finset.range n).filter (fun i => included exinds exinde i)).card : ℚ) := by
  unfold meanvd
  simp only [meanvd_fold_spec]
  congr 1
  push_cast; ring

/-- C8: for a window with `start ≤ end` that leaves at least one index of
`[0,n)` outside `[start,end]`, `meanvd` is the sum of the elements at the indices
outside `[start,end]` divided by the number of those indices; with
`start = end = -1` this is the sum of all elements divided by `n`. -/
theorem meanvd_contiguous (data : ℕ → ℚ) (n : ℕ) (exinds exinde : ℤ) (h : exinds ≤ exinde)
    (_hpos : 0 < ((Finset.range n).filter
      (fun i : ℕ => (i : ℤ) < exinds ∨ exinde < (i : ℤ))).card) :
    meanvd data n exinds exinde =
        (∑ i in (Finset.range n).filter (fun i : ℕ => (i : ℤ) < exinds ∨ exinde < (i : ℤ)),
          data i) /
          (((Finset.range n).filter
            (fun i : ℕ => (i : ℤ) < exinds ∨ exinde < (i : ℤ))).card : ℚ) ∧
      (exinds = -1 → exinde = -1 →
        meanvd data n exinds exinde = (∑ i in Finset.range n, data i) / (n : ℚ)) := by
  have hf : (Finset.range n).filter (fun i => included exinds exinde i) =
      (Finset.range n).filter (fun i : ℕ => (i : ℤ) < exinds ∨ exinde < (i : ℤ)) := by
    apply Finset.filter_congr
    intro i _
    unfold included
    constructor
    · rintro (⟨_, h2⟩ | ⟨h1, _⟩)
      · exact h2
      · omega
    · intro h2; exact Or.inl ⟨h, h2⟩
  refine ⟨by rw [meanvd_spec, hf], fun hs he => ?_⟩
  have hall : (Finset.range n).filter (fun i : ℕ => (i : ℤ) < exinds ∨ exinde < (i : ℤ)) =
      Finset.range n := by
    apply Finset.filter_true_of_mem
    intro i _
    right; omega
  rw [meanvd_spec, hf, hall, Finset.card_range]

/-- Evaluation of `meanvd` on `[1,5,3,9,2]` with the sentinel window. -/
theorem meanvd_sentinel_example : meanvd (arrayOf [1, 5, 3, 9, 2]) 5 (-1) (-1) = 4 := by
  have hr : List.range 5 = [0, 1, 2, 3, 4] := by decide
  simp [meanvd, meanvdStep, arrayOf, hr]
  norm_num

/-- Evaluation of `meanvd` on `[1,2,3,4,10]` with `start = 3`, `end = 0`. -/
theorem meanvd_wrap_example : meanvd (arrayOf [1, 2, 3, 4, 10]) 5 3 0 = 5 / 2 := by
  have hr : List.range 5 = [0, 1, 2, 3, 4] := by decide
  simp [meanvd, meanvdStep, arrayOf, hr]
  norm_num

/-- Witness for `meanvd_contiguous`: `[1,5,3,9,2]` with the sentinel window;
the mean is 4. -/
theorem meanvd_contiguous_witness :
    (meanvd (arrayOf [1, 5, 3, 9, 2]) 5 (-1) (-1) =
        (∑ i in (Finset.range 5).filter (fun i : ℕ => (i : ℤ) < -1 ∨ (-1 : ℤ) < (i : ℤ)),
          arrayOf [1, 5, 3, 9, 2] i) /
          (((Finset.range 5).filter
            (fun i : ℕ => (i : ℤ) < -1 ∨ (-1 : ℤ) < (i : ℤ))).card : ℚ) ∧
      ((-1 : ℤ) = -1 → (-1 : ℤ) = -1 →
        meanvd (arrayOf [1, 5, 3, 9, 2]) 5 (-1) (-1) =
          (∑ i in Finset.range 5, arrayOf [1, 5, 3, 9, 2] i) / ((5 : ℕ) : ℚ))) ∧
      meanvd (arrayOf [1, 5, 3, 9, 2]) 5 (-1) (-1) = 4 :=
  ⟨meanvd_contiguous (arrayOf [1, 5, 3, 9, 2]) 5 (-1) (-1) (by decide) (by decide),
    meanvd_sentinel_example⟩

/-- C6 (as amended): for a window with `start > end`, `meanvd` counts exactly
the indices `i` of `[0,n)` with `end < i < start`: it is the sum of the elements
at those indices divided by their number, whenever that number is positive. -/
theorem meanvd_wrap (data : ℕ → ℚ) (n : ℕ) (exinds exinde : ℤ) (h : exinds > exinde)
    (_hpos : 0 < ((Finset.range n).filter
      (fun i : ℕ => exinde < (i : ℤ) ∧ (i : ℤ) < exinds)).card) :
    meanvd data n exinds exinde =
      (∑ i in (Finset.range n).filter (fun i : ℕ => exinde < (i : ℤ) ∧ (i : ℤ) < exinds),
        data i) /
        (((Finset.range n).filter
          (fun i : ℕ => exinde < (i : ℤ) ∧ (i : ℤ) < exinds)).card : ℚ) := by
  have hf : (Finset.range n).filter (fun i => included exinds exinde i) =
      (Finset.range n).filter (fun i : ℕ => exinde < (i : ℤ) ∧ (i : ℤ) < exinds) := by
    apply Finset.filter_congr
    intro i _
    unfold included
    constructor
    · rintro (⟨h1, _⟩ | ⟨_, h2, h3⟩)
      · omega
      · exact ⟨h3, h2⟩
    · intro h2; exact Or.inr ⟨h, h2.2, h2.1⟩
  rw [meanvd_spec, hf]

/-- Witness for `meanvd_wrap`: `[1,2,3,4,10]` with `start = 3`, `end = 0`
counts the indices 1 and 2; the mean is `5/2`. -/
theorem meanvd_wrap_witness :
    meanvd (arrayOf [1, 2, 3, 4, 10]) 5 3 0 =
        (∑ i in (Finset.range 5).filter (fun i : ℕ => (0 : ℤ) < (i : ℤ) ∧ (i : ℤ) < 3),
          arrayOf [1, 2, 3, 4, 10] i) /
          (((Finset.range 5).filter
            (fun i : ℕ => (0 : ℤ) < (i : ℤ) ∧ (i : ℤ) < 3)).card : ℚ) ∧
      meanvd (arrayOf [1, 2, 3, 4, 10]) 5 3 0 = 5 / 2 :=
  ⟨meanvd_wrap (arrayOf [1, 2, 3, 4, 10]) 5 3 0 (by decide) (by decide), meanvd_wrap_example⟩

/-- C6 (counterexample): on `[1,2,3,4,10]` with `start = 3`, `end = 0` the
indices not satisfying `end < i < start` are 0, 3, 4, with mean `15/3 = 5`,
while `meanvd` returns `5/2`, the mean over the indices 1 and 2. -/
theorem meanvd_wrap_counterexample :
    0 < ((Finset.range 5).filter
        (fun i : ℕ => ¬((0 : ℤ) < (i : ℤ) ∧ (i : ℤ) < 3))).card ∧
      meanvd (arrayOf [1, 2, 3, 4, 10]) 5 3 0 ≠
        (∑ i in (Finset.range 5).filter (fun i : ℕ => ¬((0 : ℤ) < (i : ℤ) ∧ (i : ℤ) < 3)),
          arrayOf [1, 2, 3, 4, 10] i) /
          (((Finset.range 5).filter
            (fun i : ℕ => ¬((0 : ℤ) < (i : ℤ) ∧ (i : ℤ) < 3))).card : ℚ) := by
  have hf : (Finset.range 5).filter (fun i : ℕ => ¬((0 : ℤ) < (i : ℤ) ∧ (i : ℤ) < 3)) =
      {0, 3, 4} := by decide
  rw [hf, meanvd_wrap_example]
  refine ⟨by decide, ?_⟩
  have hs : ∑ i in ({0, 3, 4} : Finset ℕ), arrayOf [1, 2, 3, 4, 10] i = 15 := by
    simp [arrayOf]; norm_num
  have hc : (({0, 3, 4} : Finset ℕ).card : ℚ) = 3 := by
    have : ({0, 3, 4} : Finset ℕ).card = 3 := by decide
    rw [this]; norm_num
  rw [hs, hc]
  norm_num

/-- C5 (the code at the failing input): on `[9,1,2]` with the window
`start = end = 0` the indices outside the window are 1 and 2, with maximum 2 at
index 2, while `maxvd` returns 9 with index 0, an index inside the window. -/
theorem maxvd_window_at_zero :
    maxvd (arrayOf [9, 1, 2]) 3 0 0 = (9, 0) ∧
      (∀ i : ℕ, i < 3 → ¬((0 : ℤ) ≤ (i : ℤ) ∧ (i : ℤ) ≤ 0) → arrayOf [9, 1, 2] i ≤ 2) ∧
      arrayOf [9, 1, 2] 2 = 2 := by
  decide

/-- Evaluation of `maxvd` on `[1,5,3,9,2]` with the window `[2,3]`: 5 at index 1. -/
theorem maxvd_window_example : maxvd (arrayOf [1, 5, 3, 9, 2]) 5 2 3 = (5, 1) := by
  decide

/-- C7 witness: `[1,5,3,9,2]` gives 9 at index 3. -/
theorem maxvd_sentinel_witness :
    ((maxvd (arrayOf [1, 5, 3, 9, 2]) 5 (-1) (-1)).2 < 5 ∧
      arrayOf [1, 5, 3, 9, 2] (maxvd (arrayOf [1, 5, 3, 9, 2]) 5 (-1) (-1)).2 =
        (maxvd (arrayOf [1, 5, 3, 9, 2]) 5 (-1) (-1)).1 ∧
      (∀ i, i < 5 → arrayOf [1, 5, 3, 9, 2] i ≤ (maxvd (arrayOf [1, 5, 3, 9, 2]) 5 (-1) (-1)).1) ∧
      (∀ i, i < (maxvd (arrayOf [1, 5, 3, 9, 2]) 5 (-1) (-1)).2 →
        arrayOf [1, 5, 3, 9, 2] i < (maxvd (arrayOf [1, 5, 3, 9, 2]) 5 (-1) (-1)).1)) ∧
      maxvd (arrayOf [1, 5, 3, 9, 2]) 5 (-1) (-1) = (9, 3) :=
  ⟨maxvd_sentinel (arrayOf [1, 5, 3, 9, 2]) 5 (by decide), maxvd_sentinel_example⟩

/-! ## `interp1`: C9, C10 -/

/-- C9: on two points with `x0 ≠ x1`, `interp1` returns `y0` at `x0` and `y1`
at `x1`. -/
theorem interp1_two_points (x y : ℤ → ℚ) (h : x 0 ≠ x 1) :
    interp1 x y 2 (x 0) = some (y 0) ∧ interp1 x y 2 (x 1) = some (y 1) := by
  have h1 : x 0 - x 1 ≠ 0 := sub_ne_zero.mpr h
  have e : ∀ t, interp1 x y 2 t =
      some ((y 0 * (t - x 1) - y 1 * (t - x 0)) / (x 0 - x 1)) := by
    intro t
    unfold interp1
    rw [if_neg (by decide), if_neg (by decide), if_pos rfl]
  rw [e, e]
  constructor
  · congr 1; field_simp
  · congr 1; field_simp; ring

/-- The search loop ends, within `m - k` evaluations of its condition, on
adjacent indices between the initial ones, and keeps `xx[k-1] ≤ t < xx[m-1]`. -/
theorem searchLoop_some (xx : ℤ → ℚ) (t : ℚ) (fuel : ℕ) (k m : ℤ) (hk : 1 ≤ k) (hkm : k < m)
    (hf : m - k ≤ fuel) (hlo : xx (k - 1) ≤ t) (hhi : t < xx (m - 1)) :
    ∃ k' : ℤ, searchLoop xx t fuel k m = some (k', k' + 1) ∧ k ≤ k' ∧ k' + 1 ≤ m ∧
      xx (k' - 1) ≤ t ∧ t < xx k' := by
  induction fuel generalizing k m with
  | zero => exfalso; push_cast at hf; omega
  | succ fuel ih =>
    unfold searchLoop
    by_cases h1 : m - k ≠ 1
    · rw [if_pos h1]
      have hdiv : (k + m).tdiv 2 = (k + m) / 2 :=
        Int.tdiv_eq_ediv (by omega) (by decide)
      simp only [hdiv]
      push_cast at hf
      by_cases h2 : t < xx ((k + m) / 2 - 1)
      · rw [if_pos h2]
        obtain ⟨k', e1, e2, e3, e4, e5⟩ := ih k ((k + m) / 2) hk (by omega) (by omega) hlo h2
        exact ⟨k', e1, e2, by omega, e4, e5⟩
      · rw [if_neg h2]
        obtain ⟨k', e1, e2, e3, e4, e5⟩ :=
          ih ((k + m) / 2) m (by omega) (by omega) (by omega) (not_lt.mp h2) hhi
        exact ⟨k', e1, by omega, e3, e4, e5⟩
    · rw [if_neg h1]
      have hm : m = k + 1 := by omega
      subst hm
      refine ⟨k, rfl, le_refl _, le_refl _, hlo, ?_⟩
      have : k + 1 - 1 = k := by omega
      rw [this] at hhi; exact hhi

/-- The window of `interp1` on a strictly increasing copy `xx[0..n)`, `n ≥ 3`:
three consecutive indices inside the array. -/
theorem interp1Window_sorted (xx : ℤ → ℚ) (n : ℤ) (t : ℚ) (hn : 3 ≤ n)
    (hs : ∀ i j : ℤ, 0 ≤ i → i < j → j < n → xx i < xx j) :
    ∃ k : ℤ, interp1Window xx n t = some (k, k + 2) ∧ 0 ≤ k ∧ k + 2 ≤ n - 1 := by
  have hle : ∀ i j : ℤ, 0 ≤ i → i ≤ j → j < n → xx i ≤ xx j := by
    intro i j h0 hij hj
    rcases eq_or_lt_of_le hij with h | h
    · rw [h]
    · exact le_of_lt (hs i j h0 h hj)
  unfold interp1Window
  by_cases h1 : t ≤ xx 1
  · rw [if_pos h1]; exact ⟨0, rfl, le_refl _, by omega⟩
  · rw [if_neg h1]
    by_cases h2 : t ≥ xx (n - 2)
    · rw [if_pos h2]
      refine ⟨n - 3, ?_, by omega, by omega⟩
      have : n - 3 + 2 = n - 1 := by omega
      rw [this]
    · rw [if_neg h2]
      have h1' : xx 1 < t := not_le.mp h1
      have h2' : t < xx (n - 2) := not_le.mp h2
      have hfuel : n - 1 ≤ (n.toNat : ℤ) := by
        rw [Int.toNat_of_nonneg (by omega)]; omega
      have hlo : xx (1 - 1) ≤ t := by
        have : xx 0 ≤ xx 1 := hle 0 1 (le_refl _) (by omega) (by omega)
        simpa using le_trans this (le_of_lt h1')
      have hhi : t < xx (n - 1) :=
        lt_of_lt_of_le h2' (hle (n - 2) (n - 1) (by omega) (by omega) (by omega))
      obtain ⟨k', e1, e2, e3, e4, e5⟩ :=
        searchLoop_some xx t n.toNat 1 n (le_refl _) (by omega) hfuel hlo hhi
      -- the bracket `xx[k'-1] ≤ t < xx[k']` lies strictly inside `xx[1] … xx[n-2]`
      have hk1 : 2 ≤ k' := by
        by_contra hc
        have : xx k' ≤ xx 1 := hle k' 1 (by omega) (by omega) (by omega)
        linarith
      have hk2 : k' ≤ n - 2 := by
        by_contra hc
        have : xx (n - 2) ≤ xx (k' - 1) := hle (n - 2) (k' - 1) (by omega) (by omega) (by omega)
        linarith
      rw [e1]
      simp only [Option.map_some']
      have hm : k' + 1 - 1 = k' := by omega
      rw [hm]
      by_cases h3 : |t - xx (k' - 1)| < |t - xx k'|
      · rw [if_pos h3]
        refine ⟨k' - 1 - 1, ?_, by omega, by omega⟩
        have : k' - 1 - 1 + 2 = k' := by omega
        rw [this]
      · rw [if_neg h3]
        refine ⟨k' - 1, ?_, by omega, by omega⟩
        have : k' - 1 + 2 = k' + 1 := by omega
        rw [this]

/-- The Lagrange sum over three distinct nodes reproduces a line. -/
theorem lagrange_linear (xx yy : ℤ → ℚ) (t a b : ℚ) (k : ℤ)
    (h01 : xx k ≠ xx (k + 1)) (h02 : xx k ≠ xx (k + 2)) (h12 : xx (k + 1) ≠ xx (k + 2))
    (hy0 : yy k = a * xx k + b) (hy1 : yy (k + 1) = a * xx (k + 1) + b)
    (hy2 : yy (k + 2) = a * xx (k + 2) + b) :
    lagrange xx yy t k (k + 2) = a * t + b := by
  have hr : indexRange k (k + 2) = [k, k + 1, k + 2] := by
    unfold indexRange
    have : (k + 2 - k + 1).toNat = 3 := by
      have : k + 2 - k + 1 = 3 := by omega
      rw [this]; rfl
    rw [this]
    have : List.range 3 = [0, 1, 2] := by decide
    rw [this]
    simp
  have d01 : xx k - xx (k + 1) ≠ 0 := sub_ne_zero.mpr h01
  have d02 : xx k - xx (k + 2) ≠ 0 := sub_ne_zero.mpr h02
  have d12 : xx (k + 1) - xx (k + 2) ≠ 0 := sub_ne_zero.mpr h12
  have d10 : xx (k + 1) - xx k ≠ 0 := sub_ne_zero.mpr (Ne.symm h01)
  have d20 : xx (k + 2) - xx k ≠ 0 := sub_ne_zero.mpr (Ne.symm h02)
  have d21 : xx (k + 2) - xx (k + 1) ≠ 0 := sub_ne_zero.mpr (Ne.symm h12)
  unfold lagrange
  rw [hr]
  simp only [List.foldl_cons, List.foldl_nil, ne_eq, not_true_eq_false, if_false,
    add_right_eq_self, self_eq_add_right, one_ne_zero, OfNat.ofNat_ne_zero, if_true,
    add_right_inj, OfNat.ofNat_ne_one, OfNat.one_ne_ofNat, not_false_eq_true]
  rw [hy0, hy1, hy2]
  field_simp
  ring

/-- The value of `interp1` for `n ≥ 3` on a strictly increasing copy `xx` with
`yy` on a line. -/
theorem interp1_sorted_linear (xx yy : ℤ → ℚ) (n : ℤ) (a b t : ℚ) (hn : 3 ≤ n)
    (hs : ∀ i j : ℤ, 0 ≤ i → i < j → j < n → xx i < xx j)
    (hy : ∀ i : ℤ, 0 ≤ i → i < n → yy i = a * xx i + b) :
    (interp1Window xx n t).map (fun km => lagrange xx yy t km.1 km.2) = some (a * t + b) := by
  obtain ⟨k, e, h0, h1⟩ := interp1Window_sorted xx n t hn hs
  rw [e]
  simp only [Option.map_some']
  rw [lagrange_linear xx yy t a b k
    (ne_of_lt (hs k (k + 1) h0 (by omega) (by omega)))
    (ne_of_lt (hs k (k + 2) h0 (by omega) (by omega)))
    (ne_of_lt (hs (k + 1) (k + 2) (by omega) (by omega) (by omega)))
    (hy k h0 (by omega)) (hy (k + 1) (by omega) (by omega)) (hy (k + 2) (by omega) (by omega))]

/-- C10: for `n ≥ 3`, strictly increasing or strictly decreasing `x[0..n)`,
`y[i] = a*x[i] + b` for all `i` and a query `t` between `min(x)` and `max(x)`,
`interp1` returns `a*t + b`. -/
theorem interp1_linear (x y : ℤ → ℚ) (n : ℤ) (a b t : ℚ) (hn : 3 ≤ n)
    (hx : ((∀ i j : ℤ, 0 ≤ i → i < j → j < n → x i < x j) ∧ x 0 ≤ t ∧ t ≤ x (n - 1)) ∨
      ((∀ i j : ℤ, 0 ≤ i → i < j → j < n → x j < x i) ∧ x (n - 1) ≤ t ∧ t ≤ x 0))
    (hy : ∀ i : ℤ, 0 ≤ i → i < n → y i = a * x i + b) :
    interp1 x y n t = some (a * t + b) := by
  unfold interp1
  rw [if_neg (by omega), if_neg (by omega), if_neg (by omega)]
  rcases hx with ⟨hinc, _, _⟩ | ⟨hdec, _, _⟩
  · have h0 : ¬ (x 0 > x (n - 1)) :=
      not_lt.mpr (le_of_lt (hinc 0 (n - 1) (le_refl _) (by omega) (by omega)))
    simp only [if_neg h0]
    exact interp1_sorted_linear x y n a b t hn hinc hy
  · have h0 : x 0 > x (n - 1) := hdec 0 (n - 1) (le_refl _) (by omega) (by omega)
    simp only [if_pos h0]
    apply interp1_sorted_linear (fun k => x (n - 1 - k)) (fun k => y (n - 1 - k)) n a b t hn
    · intro i j hi hij hj
      exact hdec (n - 1 - j) (n - 1 - i) (by omega) (by omega) (by omega)
    · intro i hi hin
      exact hy (n - 1 - i) (by omega) (by omega)

/-- Witness for `interp1_two_points`: the points `(1, 5)` and `(3, -2)`. -/
theorem interp1_two_points_witness :
    interp1 (intArrayOf [1, 3]) (intArrayOf [5, -2]) 2 (intArrayOf [1, 3] 0) =
        some (intArrayOf [5, -2] 0) ∧
      interp1 (intArrayOf [1, 3]) (intArrayOf [5, -2]) 2 (intArrayOf [1, 3] 1) =
        some (intArrayOf [5, -2] 1) :=
  interp1_two_points (intArrayOf [1, 3]) (intArrayOf [5, -2]) (by decide)

/-- Witness for `interp1_linear`: the decreasing nodes `x[i] = 10 - 2*i`,
`i < 5`, on the line `y = 3*x - 1`, queried at `t = 9/2`. -/
theorem interp1_linear_witness :
    interp1 (fun i => 10 - 2 * (i : ℚ)) (fun i => 3 * (10 - 2 * (i : ℚ)) - 1) 5 (9 / 2) =
      some (3 * (9 / 2) + (-1)) :=
  interp1_linear (fun i => 10 - 2 * (i : ℚ)) (fun i => 3 * (10 - 2 * (i : ℚ)) - 1) 5 3 (-1)
    (9 / 2) (by decide)
    (Or.inr ⟨fun i j _ hij _ => by
        have : (i : ℚ) < j := by exact_mod_cast hij
        simp only; linarith,
      by norm_num, by norm_num⟩)
    (fun i _ _ => by simp only; ring)

/-! ## `ind2sub` and `cpxpspec`: C11, C12 -/

theorem toInt32_of_range (v : ℤ) (h0 : -2147483648 ≤ v) (h1 : v < 2147483648) :
    toInt32 v = v := by
  unfold toInt32; omega

/-- C11: for `nx ≥ 1`, `ny ≥ 1` and a flat index `0 ≤ ind < nx*ny`, with `ny*ind`
and `nx*ny` representable in a 32-bit `int`, `ind2sub` gives `0 ≤ subx < nx`,
`0 ≤ suby < ny` and `suby*nx + subx = ind`. -/
theorem ind2sub_roundtrip (ind nx ny : ℤ) (hnx : 1 ≤ nx) (hny : 1 ≤ ny) (h0 : 0 ≤ ind)
    (h1 : ind < nx * ny) (hr1 : ny * ind < 2147483648) (hr2 : nx * ny < 2147483648) :
    0 ≤ (ind2sub ind nx ny).1 ∧ (ind2sub ind nx ny).1 < nx ∧
      0 ≤ (ind2sub ind nx ny).2 ∧ (ind2sub ind nx ny).2 < ny ∧
      (ind2sub ind nx ny).2 * nx + (ind2sub ind nx ny).1 = ind := by
  have hp1 : 0 ≤ ny * ind := mul_nonneg (by omega) h0
  have hp2 : 0 < nx * ny := mul_pos (by omega) (by omega)
  have hx : (ind2sub ind nx ny).1 = ind % nx := Int.tmod_eq_emod h0 (by omega)
  have hy : (ind2sub ind nx ny).2 = ind / nx := by
    show (toInt32 (ny * ind)).tdiv (toInt32 (nx * ny)) = ind / nx
    rw [toInt32_of_range _ (by omega) hr1, toInt32_of_range _ (by omega) hr2,
      Int.tdiv_eq_ediv hp1 (le_of_lt hp2), mul_comm nx ny]
    exact Int.mul_ediv_mul_of_pos ind nx (by omega)
  rw [hx, hy]
  have hm0 := Int.emod_nonneg ind (by omega : nx ≠ 0)
  have hm1 := Int.emod_lt_of_pos ind (by omega : 0 < nx)
  have hd := Int.ediv_add_emod ind nx
  have hq0 : 0 ≤ ind / nx := Int.ediv_nonneg h0 (by omega)
  have hq1 : ind / nx < ny := Int.ediv_lt_of_lt_mul (by omega) (by rw [mul_comm]; exact h1)
  refine ⟨hm0, hm1, hq0, hq1, ?_⟩
  rw [mul_comm]; exact hd

/-- Witness for `ind2sub_roundtrip`: the last index of a 7 by 5 grid. -/
theorem ind2sub_roundtrip_witness :
    (0 ≤ (ind2sub 34 7 5).1 ∧ (ind2sub 34 7 5).1 < 7 ∧
      0 ≤ (ind2sub 34 7 5).2 ∧ (ind2sub 34 7 5).2 < 5 ∧
      (ind2sub 34 7 5).2 * 7 + (ind2sub 34 7 5).1 = 34) ∧ ind2sub 34 7 5 = (6, 4) ∧
      ind2sub 0 7 5 = (0, 0) :=
  ⟨ind2sub_roundtrip 34 7 5 (by decide) (by decide) (by decide) (by decide) (by decide)
    (by decide), by decide, by decide⟩

/-- The accumulating loop of `cpxpspec` adds `q i` to each of the first `k` bins. -/
theorem pspec_sum_loop (q : ℕ → ℚ) (pspec : ℕ → ℚ) (k j : ℕ) :
    (List.range k).foldl (fun ps i => Function.update ps i (ps i + q i)) pspec j =
      if j < k then pspec j + q j else pspec j := by
  induction k with
  | zero => simp
  | succ k ih =>
    rw [List.range_succ, List.foldl_append, List.foldl_cons, List.foldl_nil]
    by_cases hj : j = k
    · subst hj
      rw [Function.update_same, ih, if_neg (lt_irrefl _), if_pos (Nat.lt_succ_self _)]
    · rw [Function.update_noteq hj, ih]
      by_cases hlt : j < k
      · rw [if_pos hlt, if_pos (by omega)]
      · rw [if_neg hlt, if_neg (by omega)]

/-- The overwriting loop of `cpxpspec` stores `q i` in each of the first `k` bins. -/
theorem pspec_set_loop (q : ℕ → ℚ) (pspec : ℕ → ℚ) (k j : ℕ) :
    (List.range k).foldl (fun ps i => Function.update ps i (q i)) pspec j =
      if j < k then q j else pspec j := by
  induction k with
  | zero => simp
  | succ k ih =>
    rw [List.range_succ, List.foldl_append, List.foldl_cons, List.foldl_nil]
    by_cases hj : j = k
    · subst hj
      rw [Function.update_same, if_pos (Nat.lt_succ_self _)]
    · rw [Function.update_noteq hj, ih]
      by_cases hlt : j < k
      · rw [if_pos hlt, if_pos (by omega)]
      · rw [if_neg hlt, if_neg (by omega)]

/-- C12: with the forward transform an arbitrary fixed function `cpxfft`, for
every block `c` of length `n`: with `flagsum = 0` the call leaves
`pspec[i] = Re(F(c)[i])^2 + Im(F(c)[i])^2` for every bin `i` in `[0,n)`, whatever
`pspec` held before; and two calls with `flagsum ≠ 0`, each on a fresh copy of
`c`, starting from an all-zero `pspec`, leave exactly twice that value in every
bin. -/
theorem cpxpspec_accumulate (cpxfft : ℤ → (ℕ → ℚ) → (ℕ → ℚ)) (c : ℕ → ℚ) (n : ℤ) :
    (∀ (pspec : ℕ → ℚ) (i : ℕ), (i : ℤ) < n →
        (cpxpspec cpxfft c n 0 pspec).2 i =
          cpxfft n c (2 * i) ^ 2 + cpxfft n c (2 * i + 1) ^ 2) ∧
      (∀ (flagsum : ℤ) (i : ℕ), flagsum ≠ 0 → (i : ℤ) < n →
        (cpxpspec cpxfft c n flagsum (cpxpspec cpxfft c n flagsum (fun _ => 0)).2).2 i =
          2 * (cpxpspec cpxfft c n 0 (fun _ => 0)).2 i) := by
  have hset : ∀ (pspec : ℕ → ℚ) (i : ℕ), (i : ℤ) < n →
      (cpxpspec cpxfft c n 0 pspec).2 i =
        cpxfft n c (2 * i) ^ 2 + cpxfft n c (2 * i + 1) ^ 2 := by
    intro pspec i hi
    have hi' : i < n.toNat := by omega
    unfold cpxpspec
    simp only [ne_eq, not_true_eq_false, if_false]
    rw [pspec_set_loop (fun i => cpxfft n c (2 * i) * cpxfft n c (2 * i)
      + cpxfft n c (2 * i + 1) * cpxfft n c (2 * i + 1)), if_pos hi']
    ring
  refine ⟨hset, ?_⟩
  intro flagsum i hf hi
  have hi' : i < n.toNat := by omega
  rw [hset _ i hi]
  unfold cpxpspec
  simp only [ne_eq, hf, not_false_eq_true, if_true]
  rw [pspec_sum_loop (fun i => cpxfft n c (2 * i) * cpxfft n c (2 * i)
      + cpxfft n c (2 * i + 1) * cpxfft n c (2 * i + 1)), if_pos hi',
    pspec_sum_loop (fun i => cpxfft n c (2 * i) * cpxfft n c (2 * i)
      + cpxfft n c (2 * i + 1) * cpxfft n c (2 * i + 1)), if_pos hi']
  ring

/-- Witness for `cpxpspec_accumulate`: a block of two complex values and a
transform that swaps and shifts the components. -/
theorem cpxpspec_accumulate_witness :
    (cpxpspec (fun _ c i => c (i + 1) - c i) (arrayOf [1, 2, 4, 8]) 2 0 (fun _ => 7)).2 1 =
        (fun (_ : ℤ) (c : ℕ → ℚ) (i : ℕ) => c (i + 1) - c i) 2 (arrayOf [1, 2, 4, 8]) (2 * 1) ^ 2
          + (fun (_ : ℤ) (c : ℕ → ℚ) (i : ℕ) => c (i + 1) - c i) 2 (arrayOf [1, 2, 4, 8])
            (2 * 1 + 1) ^ 2 ∧
      (cpxpspec (fun _ c i => c (i + 1) - c i) (arrayOf [1, 2, 4, 8]) 2 1
        (cpxpspec (fun _ c i => c (i + 1) - c i) (arrayOf [1, 2, 4, 8]) 2 1
          (fun _ => 0)).2).2 1 =
        2 * (cpxpspec (fun _ c i => c (i + 1) - c i) (arrayOf [1, 2, 4, 8]) 2 0
          (fun _ => 0)).2 1 :=
  ⟨(cpxpspec_accumulate (fun _ c i => c (i + 1) - c i) (arrayOf [1, 2, 4, 8]) 2).1
      (fun _ => 7) 1 (by decide),
    (cpxpspec_accumulate (fun _ c i => c (i + 1) - c i) (arrayOf [1, 2, 4, 8]) 2).2
      1 1 (by decide) (by decide)⟩

/-! ## Returned phase and offset, resampler output, `maxvd` at index 0: C13, C14, C17, C20 -/

/-- The loop `while(prem>DPI) prem-=DPI;` ends at a value not above `DPI`. -/
theorem phaseRem_le (prem : ℚ) : phaseRem prem ≤ DPI := by
  induction prem using phaseRem.induct with
  | case1 x hx ih => rw [phaseRem, if_pos hx]; exact ih
  | case2 x hx => rw [phaseRem, if_neg hx]; exact not_lt.mp hx

/-- The phase returned by `mixcarr` for a real or complex block of `n ≥ 0`
samples: the loop `while(prem>DPI) prem-=DPI;` applied to
`phi0 + DPI*freq*ti*n`. -/
theorem mixcarr_phase (cost sint : ℤ → ℤ) (data : ℕ → ℤ) (dtype : DType) (ti freq phi0 : ℚ)
    (n : ℤ) (hn : 0 ≤ n) (hd : dtype ≠ DType.other) :
    (mixcarr cost sint data dtype ti n freq phi0).2 = phaseRem (phi0 + DPI * freq * ti * n) := by
  have hD := DPI_pos
  have hcast : ((n.toNat : ℕ) : ℚ) = (n : ℚ) := by
    have : ((n.toNat : ℕ) : ℤ) = n := Int.toNat_of_nonneg hn
    exact_mod_cast this
  have e : (phi0 * CDIV / DPI + (n.toNat : ℚ) * (freq * CDIV * ti)) * DPI / CDIV
      = phi0 + DPI * freq * ti * n := by
    rw [hcast]; unfold CDIV; field_simp; ring
  cases dtype with
  | DTYPEI => simp only [mixcarr, mixLoopI_eq, mixLoopG_phase, e]
  | DTYPEIQ => simp only [mixcarr, mixLoopIQ_eq, mixLoopG_phase, e]
  | other => exact absurd rfl hd

/-- C13 (as amended): for a real or complex block of `n ≥ 0` samples, every
carrier frequency, sampling interval and initial phase, the value `r` returned
by `mixcarr` is at most `DPI` and is `phi0 + DPI*freq*ti*n` minus a whole number
`k ≥ 0` of cycles `DPI`; it is positive when `phi0 + DPI*freq*ti*n` exceeds
`DPI`, and is `phi0 + DPI*freq*ti*n` itself otherwise. -/
theorem mixcarr_phase_range (cost sint : ℤ → ℤ) (data : ℕ → ℤ) (dtype : DType)
    (ti freq phi0 : ℚ) (n : ℤ) (hn : 0 ≤ n) (hd : dtype ≠ DType.other) :
    (mixcarr cost sint data dtype ti n freq phi0).2 ≤ DPI ∧
      (∃ k : ℕ, (mixcarr cost sint data dtype ti n freq phi0).2 =
        phi0 + DPI * freq * ti * n - k * DPI) ∧
      (DPI < phi0 + DPI * freq * ti * n →
        0 < (mixcarr cost sint data dtype ti n freq phi0).2) ∧
      (phi0 + DPI * freq * ti * n ≤ DPI →
        (mixcarr cost sint data dtype ti n freq phi0).2 = phi0 + DPI * freq * ti * n) := by
  rw [mixcarr_phase cost sint data dtype ti freq phi0 n hn hd]
  obtain ⟨h1, h2⟩ := phaseRem_spec (phi0 + DPI * freq * ti * n)
  refine ⟨phaseRem_le _, ?_, fun h => ?_, h1⟩
  · by_cases h : phi0 + DPI * freq * ti * n ≤ DPI
    · exact ⟨0, by rw [h1 h]; simp⟩
    · obtain ⟨k, hk, _⟩ := h2 (not_le.mp h)
      exact ⟨k, hk⟩
  · obtain ⟨k, _, hk⟩ := h2 h
    exact hk

/-- Witness for `mixcarr_phase_range`: three real samples, `freq = 5`, `ti = 1/64`. -/
theorem mixcarr_phase_range_witness :
    (mixcarr initCost initSint (fun i => (i : ℤ) - 3) DType.DTYPEI (1 / 64) 3 5 7).2 ≤ DPI ∧
      (∃ k : ℕ, (mixcarr initCost initSint (fun i => (i : ℤ) - 3) DType.DTYPEI (1 / 64) 3 5 7).2 =
        7 + DPI * 5 * (1 / 64) * (3 : ℤ) - k * DPI) ∧
      (DPI < 7 + DPI * 5 * (1 / 64) * (3 : ℤ) →
        0 < (mixcarr initCost initSint (fun i => (i : ℤ) - 3) DType.DTYPEI (1 / 64) 3 5 7).2) ∧
      (7 + DPI * 5 * (1 / 64) * (3 : ℤ) ≤ DPI →
        (mixcarr initCost initSint (fun i => (i : ℤ) - 3) DType.DTYPEI (1 / 64) 3 5 7).2 =
          7 + DPI * 5 * (1 / 64) * (3 : ℤ)) :=
  mixcarr_phase_range initCost initSint (fun i => (i : ℤ) - 3) DType.DTYPEI (1 / 64) 5 7 3
    (by decide) (by decide)

/-- C13 (counterexample): two real samples with `freq = -1`, `ti = 1/32` and
`phi0 = 0` end at the phase `-DPI/16`, which `while(prem>DPI)` leaves as it is:
the returned value is negative. -/
theorem mixcarr_phase_range_counterexample :
    (mixcarr initCost initSint (fun _ => 1) DType.DTYPEI (1 / 32) 2 (-1) 0).2 = -DPI / 16 ∧
      ¬ (0 ≤ (mixcarr initCost initSint (fun _ => 1) DType.DTYPEI (1 / 32) 2 (-1) 0).2 ∧
        (mixcarr initCost initSint (fun _ => 1) DType.DTYPEI (1 / 32) 2 (-1) 0).2 < DPI) := by
  have hD := DPI_pos
  have e : (mixcarr initCost initSint (fun _ => 1) DType.DTYPEI (1 / 32) 2 (-1) 0).2
      = -DPI / 16 := by
    rw [mixcarr_phase _ _ _ _ _ _ _ _ (by decide) (by decide)]
    have : (0 : ℚ) + DPI * (-1) * (1 / 32) * ((2 : ℤ) : ℚ) = -DPI / 16 := by
      push_cast; ring
    rw [this, phaseRem, if_neg (by linarith)]
  rw [e]
  exact ⟨rfl, fun h => by linarith [h.1]⟩

/-- The offset after the loop of `rescode` stays in `[0, len + ci)`. -/
theorem rescodeLoop_final (code : ℤ → ℤ) (len : ℤ) (ci : ℚ) (hci : 0 ≤ ci) (hci2 : ci ≤ len)
    (k : ℕ) (coff : ℚ) (h0 : 0 ≤ coff) (h1 : coff < len + ci) :
    0 ≤ (rescodeLoop code len ci k coff).2 ∧ (rescodeLoop code len ci k coff).2 < len + ci := by
  induction k generalizing coff with
  | zero => exact ⟨h0, h1⟩
  | succ k ih =>
    simp only [rescodeLoop]
    by_cases hc : coff ≥ (len : ℚ)
    · rw [if_pos hc]; exact ih _ (by linarith) (by linarith)
    · rw [if_neg hc]; exact ih _ (by linarith) (by linarith [not_le.mp hc])

/-- C14 (as amended): for `len ≥ 1`, any initial offset, `smax ≥ 0`,
`0 ≤ ci ≤ len` and `n ≥ 0`, the offset `r` returned by `rescode` satisfies
`0 ≤ r + smax*ci < len + ci` (it is the offset after the last advance, which is
not wrapped, less the margin `smax*ci`), and `r - (coff + n*ci)` is an integer
multiple of `len`. -/
theorem rescode_offset_range (code : ℤ → ℤ) (len : ℤ) (coff : ℚ) (smax : ℤ) (ci : ℚ) (n : ℤ)
    (hl : 1 ≤ len) (hs : 0 ≤ smax) (hci : 0 ≤ ci) (hci2 : ci ≤ len) (hn : 0 ≤ n) :
    0 ≤ (rescode code len coff smax ci n).2 + smax * ci ∧
      (rescode code len coff smax ci n).2 + smax * ci < len + ci ∧
      ∃ m : ℤ, (rescode code len coff smax ci n).2 - (coff + n * ci) = m * len := by
  obtain ⟨r0, r1⟩ := floorMod_range (coff - smax * ci) len hl
  obtain ⟨f0, f1⟩ := rescodeLoop_final code len ci hci hci2 (n + 2 * smax).toNat
    (floorMod (coff - smax * ci) len) r0 (by linarith)
  obtain ⟨_, m, h2⟩ := rescode_spec code len coff smax ci n hl hci hci2
  have hdef : (rescode code len coff smax ci n).2 =
      (rescodeLoop code len ci (n + 2 * smax).toNat (floorMod (coff - smax * ci) len)).2
        - smax * ci := rfl
  have hN : (((n + 2 * smax).toNat : ℕ) : ℚ) = (n : ℚ) + 2 * smax := by
    have : (((n + 2 * smax).toNat : ℕ) : ℤ) = n + 2 * smax :=
      Int.toNat_of_nonneg (by omega)
    exact_mod_cast this
  refine ⟨by rw [hdef]; linarith, by rw [hdef]; linarith, -m, ?_⟩
  rw [h2, hN]; push_cast; ring

/-- Witness for `rescode_offset_range`: length 5, offset `-7/2`, margin 2,
step `3/4`, 6 core samples. -/
theorem rescode_offset_range_witness :
    0 ≤ (rescode (fun i => i) 5 (-7 / 2) 2 (3 / 4) 6).2 + (2 : ℤ) * (3 / 4) ∧
      (rescode (fun i => i) 5 (-7 / 2) 2 (3 / 4) 6).2 + (2 : ℤ) * (3 / 4) < (5 : ℤ) + 3 / 4 ∧
      ∃ m : ℤ, (rescode (fun i => i) 5 (-7 / 2) 2 (3 / 4) 6).2 - (-7 / 2 + (6 : ℤ) * (3 / 4)) =
        m * (5 : ℤ) :=
  rescode_offset_range (fun i => i) 5 (-7 / 2) 2 (3 / 4) 6 (by decide) (by decide)
    (by norm_num) (by norm_num) (by decide)

/-- Evaluation of the loop of `rescode` for length 4 and step 1 from offset 0:
four symbols, and the offset 4 after the last advance. -/
theorem rescodeLoop_example (code : ℤ → ℤ) :
    rescodeLoop code 4 1 4 0 = ([code 0, code 1, code 2, code 3], 4) := by
  have t0 : ctrunc 0 = 0 := by simp [ctrunc]
  have t1 : ctrunc 1 = 1 := by simp [ctrunc]
  have t2 : ctrunc 2 = 2 := by
    unfold ctrunc; rw [if_pos (by norm_num)]
    exact_mod_cast Int.floor_intCast (α := ℚ) 2
  have t3 : ctrunc 3 = 3 := by
    unfold ctrunc; rw [if_pos (by norm_num)]
    exact_mod_cast Int.floor_intCast (α := ℚ) 3
  have c0 : ¬ ((0 : ℚ) ≥ ((4 : ℤ) : ℚ)) := by norm_num
  have c1 : ¬ ((0 : ℚ) + 1 ≥ ((4 : ℤ) : ℚ)) := by norm_num
  have c2 : ¬ ((0 : ℚ) + 1 + 1 ≥ ((4 : ℤ) : ℚ)) := by norm_num
  have c3 : ¬ ((0 : ℚ) + 1 + 1 + 1 ≥ ((4 : ℤ) : ℚ)) := by norm_num
  have e1 : (0 : ℚ) + 1 = 1 := by norm_num
  have e2 : (0 : ℚ) + 1 + 1 = 2 := by norm_num
  have e3 : (0 : ℚ) + 1 + 1 + 1 = 3 := by norm_num
  have e4 : (0 : ℚ) + 1 + 1 + 1 + 1 = 4 := by norm_num
  simp only [rescodeLoop, if_neg c0, if_neg c1, if_neg c2, if_neg c3, t0]
  have a2 : (1 : ℚ) + 1 = 2 := by norm_num
  have a3 : (2 : ℚ) + 1 = 3 := by norm_num
  have a4 : (3 : ℚ) + 1 = 4 := by norm_num
  simp only [e1, e2, e3, e4, a2, a3, a4, t1, t2, t3]

/-- C14 (counterexample): the identity case, length 4, offset 0, no margin,
step 1, 4 core samples, returns the offset 4, which is not below the length. -/
theorem rescode_offset_range_counterexample :
    (rescode (fun i => i) 4 0 0 1 4).2 = 4 ∧
      ¬ (0 ≤ (rescode (fun i => i) 4 0 0 1 4).2 ∧
        (rescode (fun i => i) 4 0 0 1 4).2 < ((4 : ℤ) : ℚ)) := by
  have e : (rescode (fun i => i) 4 0 0 1 4).2 = 4 := by
    have h0 : ((0 : ℚ) - ((0 : ℤ) : ℚ) * 1) = 0 := by norm_num
    have h1 : ((0 : ℚ) - (⌊(0 : ℚ) / ((4 : ℤ) : ℚ)⌋ : ℚ) * ((4 : ℤ) : ℚ)) = 0 := by
      simp
    have h2 : ((4 : ℤ) + 2 * 0).toNat = 4 := by decide
    simp only [rescode, h0, h1, h2, rescodeLoop_example]
    norm_num
  rw [e]
  exact ⟨rfl, fun h => by have := h.2; norm_num at this⟩

/-- The symbols written by the loop of `rescode` are the code at the indices the
loop writes when the code array is the identity: these are the indices read. -/
theorem rescodeLoop_indices (code : ℤ → ℤ) (len : ℤ) (ci : ℚ) (k : ℕ) (coff : ℚ) :
    (rescodeLoop code len ci k coff).1 = (rescodeLoop (fun i => i) len ci k coff).1.map code ∧
      (rescodeLoop code len ci k coff).2 = (rescodeLoop (fun i => i) len ci k coff).2 := by
  induction k generalizing coff with
  | zero => exact ⟨rfl, rfl⟩
  | succ k ih =>
    simp only [rescodeLoop, List.map_cons]
    exact ⟨by rw [(ih _).1], (ih _).2⟩

/-- C17: for `len ≥ 1`, any offset, `smax ≥ 0`, `0 ≤ ci ≤ len` and `n ≥ 0`,
`rescode` writes exactly `n + 2*smax` symbols; the symbols are the code at the
indices read (the output for the identity code); and for every `j` in
`[0, n+2*smax)` the index read is the floor of the floor-based remainder of
`coff - smax*ci + j*ci` modulo `len`, it lies in `[0, len)`, and `rcode[j]` is
the code at that index. -/
theorem rescode_output (code : ℤ → ℤ) (len : ℤ) (coff : ℚ) (smax : ℤ) (ci : ℚ) (n : ℤ)
    (hl : 1 ≤ len) (hs : 0 ≤ smax) (hci : 0 ≤ ci) (hci2 : ci ≤ len) (hn : 0 ≤ n) :
    ((rescode code len coff smax ci n).1.length : ℤ) = n + 2 * smax ∧
      (rescode code len coff smax ci n).1 =
        (rescode (fun i => i) len coff smax ci n).1.map code ∧
      ∀ j : ℕ, (j : ℤ) < n + 2 * smax →
        (rescode (fun i => i) len coff smax ci n).1.get? j =
            some ⌊floorMod (coff - smax * ci + (j : ℚ) * ci) len⌋ ∧
          0 ≤ ⌊floorMod (coff - smax * ci + (j : ℚ) * ci) len⌋ ∧
          ⌊floorMod (coff - smax * ci + (j : ℚ) * ci) len⌋ < len ∧
          (rescode code len coff smax ci n).1.get? j =
            some (code ⌊floorMod (coff - smax * ci + (j : ℚ) * ci) len⌋) := by
  obtain ⟨h1, _⟩ := rescode_spec code len coff smax ci n hl hci hci2
  obtain ⟨h2, _⟩ := rescode_spec (fun i => i) len coff smax ci n hl hci hci2
  have hN : (((n + 2 * smax).toNat : ℕ) : ℤ) = n + 2 * smax :=
    Int.toNat_of_nonneg (by omega)
  have htr : ∀ j : ℕ, ctrunc (floorMod (coff - smax * ci + (j : ℚ) * ci) len) =
      ⌊floorMod (coff - smax * ci + (j : ℚ) * ci) len⌋ := by
    intro j
    unfold ctrunc
    rw [if_pos (floorMod_range _ len hl).1]
  refine ⟨by rw [h1, List.length_map, List.length_range, hN], ?_, fun j hj => ?_⟩
  · exact (rescodeLoop_indices code len ci _ _).1
  · have hj' : j < (n + 2 * smax).toNat := by omega
    obtain ⟨r0, r1⟩ := floorMod_range (coff - smax * ci + (j : ℚ) * ci) len hl
    refine ⟨?_, Int.floor_nonneg.mpr r0, ?_, ?_⟩
    · rw [h2, List.get?_eq_getElem?, List.getElem?_map, List.getElem?_range hj']
      simp only [Option.map_some', htr]
    · rw [Int.floor_lt]; exact r1
    · rw [h1, List.get?_eq_getElem?, List.getElem?_map, List.getElem?_range hj']
      simp only [Option.map_some', htr]

/-- Witness for `rescode_output`: length 5, offset `-7/2`, margin 2, step `3/4`,
6 core samples. -/
theorem rescode_output_witness :
    ((rescode (fun i => 2 * i - 3) 5 (-7 / 2) 2 (3 / 4) 6).1.length : ℤ) = 6 + 2 * 2 ∧
      (rescode (fun i => 2 * i - 3) 5 (-7 / 2) 2 (3 / 4) 6).1 =
        (rescode (fun i => i) 5 (-7 / 2) 2 (3 / 4) 6).1.map (fun i => 2 * i - 3) ∧
      ∀ j : ℕ, (j : ℤ) < 6 + 2 * 2 →
        (rescode (fun i => i) 5 (-7 / 2) 2 (3 / 4) 6).1.get? j =
            some ⌊floorMod (-7 / 2 - (2 : ℤ) * (3 / 4) + (j : ℚ) * (3 / 4)) 5⌋ ∧
          0 ≤ ⌊floorMod (-7 / 2 - (2 : ℤ) * (3 / 4) + (j : ℚ) * (3 / 4)) 5⌋ ∧
          ⌊floorMod (-7 / 2 - (2 : ℤ) * (3 / 4) + (j : ℚ) * (3 / 4)) 5⌋ < 5 ∧
          (rescode (fun i => 2 * i - 3) 5 (-7 / 2) 2 (3 / 4) 6).1.get? j =
            some ((fun i => 2 * i - 3)
              ⌊floorMod (-7 / 2 - (2 : ℤ) * (3 / 4) + (j : ℚ) * (3 / 4)) 5⌋) :=
  rescode_output (fun i => 2 * i - 3) 5 (-7 / 2) 2 (3 / 4) 6 (by decide) (by decide)
    (by norm_num) (by norm_num) (by decide)

/-- C20: for a non-empty array and every window, `maxvd` returns the maximum of
`data` over index 0 together with the indices `i` in `[1,n)` that pass the
inclusion test, stores the smallest index of that set attaining it (so
`0 ≤ ind < n` and `data[ind]` is the returned value), and so returns a value
`≥ data[0]` even when index 0 lies inside the exclusion window. -/
theorem maxvd_counts_zero (data : ℕ → ℚ) (n : ℕ) (exinds exinde : ℤ) (hn : 1 ≤ n) :
    (maxvd data n exinds exinde).2 < n ∧
      data (maxvd data n exinds exinde).2 = (maxvd data n exinds exinde).1 ∧
      ((maxvd data n exinds exinde).2 = 0 ∨
        included exinds exinde (maxvd data n exinds exinde).2) ∧
      (∀ i, i < n → (i = 0 ∨ included exinds exinde i) →
        data i ≤ (maxvd data n exinds exinde).1) ∧
      (∀ i, i < (maxvd data n exinds exinde).2 → (i = 0 ∨ included exinds exinde i) →
        data i < (maxvd data n exinds exinde).1) ∧
      data 0 ≤ (maxvd data n exinds exinde).1 := by
  obtain ⟨h1, h2, h3, h4, h5⟩ := maxvd_fold_spec data exinds exinde (n - 1) _ rfl
  unfold maxvd
  exact ⟨by omega, h2, h3, fun i hi hc => h4 i (by omega) hc, h5,
    h4 0 (Nat.zero_le _) (Or.inl rfl)⟩

/-- Witness for `maxvd_counts_zero`: `[9,1,2]` with the window `[0,0]`. -/
theorem maxvd_counts_zero_witness :
    (maxvd (arrayOf [9, 1, 2]) 3 0 0).2 < 3 ∧
      arrayOf [9, 1, 2] (maxvd (arrayOf [9, 1, 2]) 3 0 0).2 = (maxvd (arrayOf [9, 1, 2]) 3 0 0).1 ∧
      ((maxvd (arrayOf [9, 1, 2]) 3 0 0).2 = 0 ∨
        included 0 0 (maxvd (arrayOf [9, 1, 2]) 3 0 0).2) ∧
      (∀ i, i < 3 → (i = 0 ∨ included 0 0 i) →
        arrayOf [9, 1, 2] i ≤ (maxvd (arrayOf [9, 1, 2]) 3 0 0).1) ∧
      (∀ i, i < (maxvd (arrayOf [9, 1, 2]) 3 0 0).2 → (i = 0 ∨ included 0 0 i) →
        arrayOf [9, 1, 2] i < (maxvd (arrayOf [9, 1, 2]) 3 0 0).1) ∧
      arrayOf [9, 1, 2] 0 ≤ (maxvd (arrayOf [9, 1, 2]) 3 0 0).1 :=
  maxvd_counts_zero (arrayOf [9, 1, 2]) 3 0 0 (by decide)

/-! ## `interp1` window and nodes: C16, C19 -/

/-- The search loop on any array: from `1 ≤ k < m` it ends within `m - k`
evaluations of its condition on adjacent indices between the initial ones; the
lower index is the initial one `k0` or satisfies `xx[k-1] ≤ t`, and the upper
index is the initial one `m0` or satisfies `t < xx[m-1]`. -/
theorem searchLoop_bracket (xx : ℤ → ℚ) (t : ℚ) (k0 m0 : ℤ) (fuel : ℕ) (k m : ℤ)
    (hk : 1 ≤ k) (hkm : k < m) (hf : m - k ≤ fuel)
    (hlo : k = k0 ∨ xx (k - 1) ≤ t) (hhi : m = m0 ∨ t < xx (m - 1)) :
    ∃ k' : ℤ, searchLoop xx t fuel k m = some (k', k' + 1) ∧ k ≤ k' ∧ k' + 1 ≤ m ∧
      (k' = k0 ∨ xx (k' - 1) ≤ t) ∧ (k' + 1 = m0 ∨ t < xx k') := by
  induction fuel generalizing k m with
  | zero => exfalso; push_cast at hf; omega
  | succ fuel ih =>
    unfold searchLoop
    by_cases h1 : m - k ≠ 1
    · rw [if_pos h1]
      have hdiv : (k + m).tdiv 2 = (k + m) / 2 :=
        Int.tdiv_eq_ediv (by omega) (by decide)
      simp only [hdiv]
      push_cast at hf
      by_cases h2 : t < xx ((k + m) / 2 - 1)
      · rw [if_pos h2]
        obtain ⟨k', e1, e2, e3, e4, e5⟩ :=
          ih k ((k + m) / 2) hk (by omega) (by omega) hlo (Or.inr h2)
        exact ⟨k', e1, e2, by omega, e4, e5⟩
      · rw [if_neg h2]
        obtain ⟨k', e1, e2, e3, e4, e5⟩ :=
          ih ((k + m) / 2) m (by omega) (by omega) (by omega) (Or.inr (not_lt.mp h2)) hhi
        exact ⟨k', e1, by omega, e3, e4, e5⟩
    · rw [if_neg h1]
      have hm : m = k + 1 := by omega
      subst hm
      refine ⟨k, rfl, le_refl _, le_refl _, hlo, ?_⟩
      have : k + 1 - 1 = k := by omega
      rw [this] at hhi; exact hhi

/-- The indices of a three-point window. -/
theorem indexRange_three (k : ℤ) : indexRange k (k + 2) = [k, k + 1, k + 2] := by
  unfold indexRange
  have : (k + 2 - k + 1).toNat = 3 := by
    have : k + 2 - k + 1 = 3 := by omega
    rw [this]; rfl
  rw [this]
  have : List.range 3 = [0, 1, 2] := by decide
  rw [this]
  simp

/-- C16: for `n ≥ 3`, every array `xx` (in any order) and every query `t`, the
window selection of `interp1` (the two clamps and the binary search, which
terminates) ends with indices `k`, `m` such that `0 ≤ k`, `m = k + 2` and
`m ≤ n - 1`, so every index `j` visited, `k ≤ j ≤ m`, is in `[0, n)`. -/
theorem interp1Window_inbounds (xx : ℤ → ℚ) (n : ℤ) (t : ℚ) (hn : 3 ≤ n) :
    ∃ k m : ℤ, interp1Window xx n t = some (k, m) ∧ 0 ≤ k ∧ m = k + 2 ∧ m ≤ n - 1 ∧
      ∀ j ∈ indexRange k m, 0 ≤ j ∧ j < n := by
  have hidx : ∀ k : ℤ, 0 ≤ k → k + 2 ≤ n - 1 → ∀ j ∈ indexRange k (k + 2), 0 ≤ j ∧ j < n := by
    intro k h0 h1 j hj
    rw [indexRange_three] at hj
    simp only [List.mem_cons, List.mem_singleton, List.not_mem_nil, or_false] at hj
    omega
  have hmain : ∃ k : ℤ, interp1Window xx n t = some (k, k + 2) ∧ 0 ≤ k ∧ k + 2 ≤ n - 1 := by
    unfold interp1Window
    by_cases h1 : t ≤ xx 1
    · rw [if_pos h1]; exact ⟨0, rfl, le_refl _, by omega⟩
    · rw [if_neg h1]
      by_cases h2 : t ≥ xx (n - 2)
      · rw [if_pos h2]
        refine ⟨n - 3, ?_, by omega, by omega⟩
        have : n - 3 + 2 = n - 1 := by omega
        rw [this]
      · rw [if_neg h2]
        have h1' : xx 1 < t := not_le.mp h1
        have h2' : t < xx (n - 2) := not_le.mp h2
        have hfuel : n - 1 ≤ (n.toNat : ℤ) := by
          rw [Int.toNat_of_nonneg (by omega)]; omega
        obtain ⟨k', e1, e2, e3, e4, e5⟩ :=
          searchLoop_bracket xx t 1 n n.toNat 1 n (le_refl _) (by omega) hfuel
            (Or.inl rfl) (Or.inl rfl)
        -- the lower index moved from 1 and the upper index moved from `n`
        have hk1 : 2 ≤ k' := by
          by_contra hc
          have hk : k' = 1 := by omega
          rcases e5 with h | h
          · omega
          · rw [hk] at h; linarith
        have hk2 : k' ≤ n - 2 := by
          by_contra hc
          have hk : k' = n - 1 := by omega
          rcases e4 with h | h
          · omega
          · rw [hk] at h
            have : n - 1 - 1 = n - 2 := by omega
            rw [this] at h; linarith
        rw [e1]
        simp only [Option.map_some']
        have hm : k' + 1 - 1 = k' := by omega
        rw [hm]
        by_cases h3 : |t - xx (k' - 1)| < |t - xx k'|
        · rw [if_pos h3]
          refine ⟨k' - 1 - 1, ?_, by omega, by omega⟩
          have : k' - 1 - 1 + 2 = k' := by omega
          rw [this]
        · rw [if_neg h3]
          refine ⟨k' - 1, ?_, by omega, by omega⟩
          have : k' - 1 + 2 = k' + 1 := by omega
          rw [this]
  obtain ⟨k, e, h0, h1⟩ := hmain
  exact ⟨k, k + 2, e, h0, rfl, h1, hidx k h0 h1⟩

/-- Witness for `interp1Window_inbounds`: an unsorted array of five elements. -/
theorem interp1Window_inbounds_witness :
    ∃ k m : ℤ, interp1Window (intArrayOf [4, 1, 7, 3, 2]) 5 (5 / 2) = some (k, m) ∧ 0 ≤ k ∧
      m = k + 2 ∧ m ≤ 5 - 1 ∧ ∀ j ∈ indexRange k m, 0 ≤ j ∧ j < 5 :=
  interp1Window_inbounds (intArrayOf [4, 1, 7, 3, 2]) 5 (5 / 2) (by decide)

/-- On a strictly increasing copy `xx[0..n)`, `n ≥ 3`, the window selected for
the query `xx[i]` is inside the array and contains the index `i`. -/
theorem interp1Window_node (xx : ℤ → ℚ) (n i : ℤ) (hn : 3 ≤ n) (hi0 : 0 ≤ i) (hi1 : i < n)
    (hs : ∀ a b : ℤ, 0 ≤ a → a < b → b < n → xx a < xx b) :
    ∃ k : ℤ, interp1Window xx n (xx i) = some (k, k + 2) ∧ 0 ≤ k ∧ k + 2 ≤ n - 1 ∧
      k ≤ i ∧ i ≤ k + 2 := by
  have hle : ∀ a b : ℤ, 0 ≤ a → a ≤ b → b < n → xx a ≤ xx b := by
    intro a b h0 hab hb
    rcases eq_or_lt_of_le hab with h | h
    · rw [h]
    · exact le_of_lt (hs a b h0 h hb)
  unfold interp1Window
  by_cases h1 : xx i ≤ xx 1
  · rw [if_pos h1]
    refine ⟨0, rfl, le_refl _, by omega, hi0, ?_⟩
    by_contra hc
    have := hs 1 i (by omega) (by omega) hi1
    linarith
  · rw [if_neg h1]
    by_cases h2 : xx i ≥ xx (n - 2)
    · rw [if_pos h2]
      have hi2 : n - 2 ≤ i := by
        by_contra hc
        have := hs i (n - 2) hi0 (by omega) (by omega)
        linarith
      refine ⟨n - 3, ?_, by omega, by omega, by omega, by omega⟩
      have : n - 3 + 2 = n - 1 := by omega
      rw [this]
    · rw [if_neg h2]
      have h1' : xx 1 < xx i := not_le.mp h1
      have h2' : xx i < xx (n - 2) := not_le.mp h2
      have hfuel : n - 1 ≤ (n.toNat : ℤ) := by
        rw [Int.toNat_of_nonneg (by omega)]; omega
      have hi2 : 2 ≤ i := by
        by_contra hc
        have := hle i 1 hi0 (by omega) (by omega)
        linarith
      have hi3 : i ≤ n - 3 := by
        by_contra hc
        have := hle (n - 2) i (by omega) (by omega) hi1
        linarith
      have hlo : xx (1 - 1) ≤ xx i := by
        have : xx 0 ≤ xx i := hle 0 i (le_refl _) hi0 hi1
        simpa using this
      have hhi : xx i < xx (n - 1) := hs i (n - 1) hi0 (by omega) (by omega)
      obtain ⟨k', e1, e2, e3, e4, e5⟩ :=
        searchLoop_some xx (xx i) n.toNat 1 n (le_refl _) (by omega) hfuel hlo hhi
      -- the bracket `xx[k'-1] ≤ xx[i] < xx[k']` forces `k' - 1 = i`
      have hk : k' = i + 1 := by
        have ha : k' - 1 ≤ i := by
          by_contra hc
          have := hs i (k' - 1) hi0 (by omega) (by omega)
          linarith
        have hb : i < k' := by
          by_contra hc
          have := hle k' i (by omega) (by omega) hi1
          linarith
        omega
      subst hk
      rw [e1]
      simp only [Option.map_some']
      have hm1 : i + 1 + 1 - 1 = i + 1 := by omega
      have hm2 : i + 1 - 1 = i := by omega
      rw [hm1, hm2]
      have hne : xx i < xx (i + 1) := hs i (i + 1) hi0 (by omega) (by omega)
      have h3 : |xx i - xx i| < |xx i - xx (i + 1)| := by
        rw [sub_self, abs_zero]
        exact abs_pos.mpr (by linarith)
      rw [if_pos h3]
      refine ⟨i - 1, ?_, by omega, by omega, by omega, by omega⟩
      have : i - 1 + 2 = i + 1 := by omega
      rw [this]

/-- The Lagrange sum over three distinct nodes, at one of the nodes, is the
value at that node. -/
theorem lagrange_node (xx yy : ℤ → ℚ) (k i : ℤ) (hk : k ≤ i) (hi : i ≤ k + 2)
    (h01 : xx k ≠ xx (k + 1)) (h02 : xx k ≠ xx (k + 2)) (h12 : xx (k + 1) ≠ xx (k + 2)) :
    lagrange xx yy (xx i) k (k + 2) = yy i := by
  have d01 : xx k - xx (k + 1) ≠ 0 := sub_ne_zero.mpr h01
  have d02 : xx k - xx (k + 2) ≠ 0 := sub_ne_zero.mpr h02
  have d12 : xx (k + 1) - xx (k + 2) ≠ 0 := sub_ne_zero.mpr h12
  have d10 : xx (k + 1) - xx k ≠ 0 := sub_ne_zero.mpr (Ne.symm h01)
  have d20 : xx (k + 2) - xx k ≠ 0 := sub_ne_zero.mpr (Ne.symm h02)
  have d21 : xx (k + 2) - xx (k + 1) ≠ 0 := sub_ne_zero.mpr (Ne.symm h12)
  unfold lagrange
  rw [indexRange_three]
  simp only [List.foldl_cons, List.foldl_nil, ne_eq, not_true_eq_false, if_false,
    add_right_eq_self, self_eq_add_right, one_ne_zero, OfNat.ofNat_ne_zero, if_true,
    add_right_inj, OfNat.ofNat_ne_one, OfNat.one_ne_ofNat, not_false_eq_true]
  have hcases : i = k ∨ i = k + 1 ∨ i = k + 2 := by omega
  rcases hcases with h | h | h <;> subst h <;> field_simp

/-- The value of `interp1` for `n ≥ 3` on a strictly increasing copy `xx`,
queried at the node `xx[i]`. -/
theorem interp1_sorted_node (xx yy : ℤ → ℚ) (n i : ℤ) (hn : 3 ≤ n) (hi0 : 0 ≤ i)
    (hi1 : i < n) (hs : ∀ a b : ℤ, 0 ≤ a → a < b → b < n → xx a < xx b) :
    (interp1Window xx n (xx i)).map (fun km => lagrange xx yy (xx i) km.1 km.2) =
      some (yy i) := by
  obtain ⟨k, e, h0, h1, h2, h3⟩ := interp1Window_node xx n i hn hi0 hi1 hs
  rw [e]
  simp only [Option.map_some']
  rw [lagrange_node xx yy k i h2 h3
    (ne_of_lt (hs k (k + 1) h0 (by omega) (by omega)))
    (ne_of_lt (hs k (k + 2) h0 (by omega) (by omega)))
    (ne_of_lt (hs (k + 1) (k + 2) (by omega) (by omega) (by omega)))]

/-- C19: for `n ≥ 3`, strictly increasing or strictly decreasing `x[0..n)`,
every `y` and every `i` in `[0,n)`, `interp1` queried at `x[i]` returns `y[i]`. -/
theorem interp1_node (x y : ℤ → ℚ) (n i : ℤ) (hn : 3 ≤ n) (hi0 : 0 ≤ i) (hi1 : i < n)
    (hx : (∀ a b : ℤ, 0 ≤ a → a < b → b < n → x a < x b) ∨
      (∀ a b : ℤ, 0 ≤ a → a < b → b < n → x b < x a)) :
    interp1 x y n (x i) = some (y i) := by
  unfold interp1
  rw [if_neg (by omega), if_neg (by omega), if_neg (by omega)]
  rcases hx with hinc | hdec
  · have h0 : ¬ (x 0 > x (n - 1)) :=
      not_lt.mpr (le_of_lt (hinc 0 (n - 1) (le_refl _) (by omega) (by omega)))
    simp only [if_neg h0]
    exact interp1_sorted_node x y n i hn hi0 hi1 hinc
  · have h0 : x 0 > x (n - 1) := hdec 0 (n - 1) (le_refl _) (by omega) (by omega)
    simp only [if_pos h0]
    have hrev := interp1_sorted_node (fun k => x (n - 1 - k)) (fun k => y (n - 1 - k)) n
      (n - 1 - i) hn (by omega) (by omega)
      (fun a b ha hab hb => hdec (n - 1 - b) (n - 1 - a) (by omega) (by omega) (by omega))
    have e : n - 1 - (n - 1 - i) = i := by omega
    simp only [e] at hrev
    exact hrev

/-- Witness for `interp1_node`: the decreasing nodes `x[i] = 10 - 2*i`, `i < 5`,
with `y[i] = i*i`, queried at `x[3]`. -/
theorem interp1_node_witness :
    interp1 (fun i => 10 - 2 * (i : ℚ)) (fun i => (i : ℚ) * i) 5
        ((fun (i : ℤ) => 10 - 2 * (i : ℚ)) 3) =
      some ((fun (i : ℤ) => (i : ℚ) * i) 3) :=
  interp1_node (fun i => 10 - 2 * (i : ℚ)) (fun i => (i : ℚ) * i) 5 3 (by decide) (by decide)
    (by decide)
    (Or.inr fun a b _ hab _ => by
      have : (a : ℚ) < b := by exact_mod_cast hab
      simp only; linarith)

/-! ## Carrier table and mixer outputs: C15, C18 -/

theorem toShort_of_range (v : ℤ) (h0 : -32768 ≤ v) (h1 : v ≤ 32767) : toShort v = v := by
  unfold toShort; omega

/-- A sum of two table-by-sample products is bounded by 128 times the sum of
the absolute table values. -/
theorem abs_mix_le (c s a b : ℤ) (ha : |a| ≤ 128) (hb : |b| ≤ 128) :
    |c * a + s * b| ≤ 128 * (|c| + |s|) := by
  have h1 : |c * a| ≤ |c| * 128 := by
    rw [abs_mul]; exact mul_le_mul_of_nonneg_left ha (abs_nonneg c)
  have h2 : |s * b| ≤ |s| * 128 := by
    rw [abs_mul]; exact mul_le_mul_of_nonneg_left hb (abs_nonneg s)
  have h3 := abs_add (c * a) (s * b)
  linarith

/-- C18: with a table such that `|cost[j]| ≤ 32`, `|sint[j]| ≤ 32` and
`|cost[j]| + |sint[j]| ≤ 46` for every `j` in `[0,32)`, for every table index
`i` and all 8-bit sample values `s`, `re`, `im` in `[-128, 127]`, the products
`cost[i]*s`, `sint[i]*s` and the complex results `cost[i]*re - sint[i]*im`,
`sint[i]*re + cost[i]*im` have absolute value at most 5888 and are unchanged by
the conversion to `short`. -/
theorem mixcarr_outputs_fit (cost sint : ℤ → ℤ) (i s re im : ℤ)
    (htab : ∀ j : ℤ, 0 ≤ j → j < 32 →
      |cost j| ≤ 32 ∧ |sint j| ≤ 32 ∧ |cost j| + |sint j| ≤ 46)
    (hi0 : 0 ≤ i) (hi1 : i < 32) (hs0 : -128 ≤ s) (hs1 : s ≤ 127)
    (hr0 : -128 ≤ re) (hr1 : re ≤ 127) (hm0 : -128 ≤ im) (hm1 : im ≤ 127) :
    (|cost i * s| ≤ 5888 ∧ |sint i * s| ≤ 5888 ∧
        |cost i * re - sint i * im| ≤ 5888 ∧ |sint i * re + cost i * im| ≤ 5888) ∧
      toShort (cost i * s) = cost i * s ∧ toShort (sint i * s) = sint i * s ∧
      toShort (cost i * re - sint i * im) = cost i * re - sint i * im ∧
      toShort (sint i * re + cost i * im) = sint i * re + cost i * im := by
  obtain ⟨hc, hsn, hcs⟩ := htab i hi0 hi1
  have as : |s| ≤ 128 := abs_le.mpr ⟨by omega, by omega⟩
  have ar : |re| ≤ 128 := abs_le.mpr ⟨by omega, by omega⟩
  have am : |im| ≤ 128 := abs_le.mpr ⟨by omega, by omega⟩
  have am' : |-im| ≤ 128 := by rw [abs_neg]; exact am
  have hcn := abs_nonneg (cost i)
  have hsnn := abs_nonneg (sint i)
  have b1 : |cost i * s| ≤ 5888 := by
    have := abs_mix_le (cost i) 0 s 0 as (by norm_num)
    simp only [zero_mul, add_zero, abs_zero] at this
    linarith
  have b2 : |sint i * s| ≤ 5888 := by
    have := abs_mix_le (sint i) 0 s 0 as (by norm_num)
    simp only [zero_mul, add_zero, abs_zero] at this
    linarith
  have b3 : |cost i * re - sint i * im| ≤ 5888 := by
    have := abs_mix_le (cost i) (sint i) re (-im) ar am'
    have e : cost i * re + sint i * -im = cost i * re - sint i * im := by ring
    rw [e] at this
    linarith
  have b4 : |sint i * re + cost i * im| ≤ 5888 := by
    have := abs_mix_le (sint i) (cost i) re im ar am
    linarith
  refine ⟨⟨b1, b2, b3, b4⟩, ?_, ?_, ?_, ?_⟩
  · exact toShort_of_range _ (by have := (abs_le.mp b1).1; omega) (by have := (abs_le.mp b1).2; omega)
  · exact toShort_of_range _ (by have := (abs_le.mp b2).1; omega) (by have := (abs_le.mp b2).2; omega)
  · exact toShort_of_range _ (by have := (abs_le.mp b3).1; omega) (by have := (abs_le.mp b3).2; omega)
  · exact toShort_of_range _ (by have := (abs_le.mp b4).1; omega) (by have := (abs_le.mp b4).2; omega)

/-- Quantisation of a value `z` in `[-1, 1]` by `(short)floor(z/CSCALE+0.5)`: the
conversion to `short` changes nothing, and the result is within one half of
`32*z`. -/
theorem quantize_spec (z : ℝ) (hz : |z| ≤ 1) :
    toShort ⌊z / (CSCALE : ℝ) + 0.5⌋ = ⌊z / (CSCALE : ℝ) + 0.5⌋ ∧
      |((⌊z / (CSCALE : ℝ) + 0.5⌋ : ℤ) : ℝ) - 32 * z| ≤ 1 / 2 := by
  have hs : z / ((CSCALE : ℚ) : ℝ) + 0.5 = 32 * z + 1 / 2 := by
    simp [CSCALE]; norm_num; ring
  rw [hs]
  obtain ⟨z0, z1⟩ := abs_le.mp hz
  have f1 := Int.floor_le (32 * z + 1 / 2)
  have f2 := Int.lt_floor_add_one (32 * z + 1 / 2)
  have l0 : (-32 : ℤ) ≤ ⌊32 * z + 1 / 2⌋ := by
    rw [Int.le_floor]; push_cast; linarith
  have l1 : ⌊32 * z + 1 / 2⌋ ≤ 32 := by
    have : ⌊32 * z + 1 / 2⌋ < 33 := by
      rw [Int.floor_lt]; push_cast; linarith
    omega
  refine ⟨toShort_of_range _ (by omega) (by omega), ?_⟩
  rw [abs_le]
  constructor <;> linarith

/-- The sum of the absolute values of the cosine and the sine is below `1.4375`. -/
theorem abs_cos_add_abs_sin_lt (x : ℝ) : |Real.cos x| + |Real.sin x| < 46 / 32 := by
  have h := Real.cos_sq_add_sin_sq x
  have hc : |Real.cos x| ^ 2 = Real.cos x ^ 2 := sq_abs _
  have hs : |Real.sin x| ^ 2 = Real.sin x ^ 2 := sq_abs _
  have c0 := abs_nonneg (Real.cos x)
  have s0 := abs_nonneg (Real.sin x)
  by_contra hcon
  have hge : 46 / 32 ≤ |Real.cos x| + |Real.sin x| := not_lt.mp hcon
  nlinarith [sq_nonneg (|Real.cos x| - |Real.sin x|)]

/-- The initialised carrier table satisfies the bounds `|cost[j]| ≤ 32`,
`|sint[j]| ≤ 32` and `|cost[j]| + |sint[j]| ≤ 46` at every index. -/
theorem initTable_bounds (j : ℤ) :
    |initCost j| ≤ 32 ∧ |initSint j| ≤ 32 ∧ |initCost j| + |initSint j| ≤ 46 := by
  obtain ⟨c1, c2⟩ := quantize_spec (Real.cos ((DPI : ℝ) / (CDIV : ℝ) * (j : ℝ)))
    (Real.abs_cos_le_one _)
  obtain ⟨s1, s2⟩ := quantize_spec (Real.sin ((DPI : ℝ) / (CDIV : ℝ) * (j : ℝ)))
    (Real.abs_sin_le_one _)
  have hsum := abs_cos_add_abs_sin_lt ((DPI : ℝ) / (CDIV : ℝ) * (j : ℝ))
  have hc1 := Real.abs_cos_le_one ((DPI : ℝ) / (CDIV : ℝ) * (j : ℝ))
  have hs1 := Real.abs_sin_le_one ((DPI : ℝ) / (CDIV : ℝ) * (j : ℝ))
  unfold initCost initSint
  rw [c1, s1]
  generalize ⌊Real.cos ((DPI : ℝ) / (CDIV : ℝ) * (j : ℝ)) / (CSCALE : ℝ) + 0.5⌋ = a at c2 ⊢
  generalize ⌊Real.sin ((DPI : ℝ) / (CDIV : ℝ) * (j : ℝ)) / (CSCALE : ℝ) + 0.5⌋ = b at s2 ⊢
  generalize Real.cos ((DPI : ℝ) / (CDIV : ℝ) * (j : ℝ)) = u at c2 hsum hc1
  generalize Real.sin ((DPI : ℝ) / (CDIV : ℝ) * (j : ℝ)) = v at s2 hsum hs1
  -- `|a| ≤ 32|u| + 1/2` and `|b| ≤ 32|v| + 1/2` as reals
  have ha : ((|a| : ℤ) : ℝ) ≤ 32 * |u| + 1 / 2 := by
    push_cast
    have h1 : |(a : ℝ)| ≤ |(a : ℝ) - 32 * u| + |32 * u| := by
      have := abs_add ((a : ℝ) - 32 * u) (32 * u)
      simpa using this
    have h2 : |32 * u| = 32 * |u| := by rw [abs_mul]; norm_num
    linarith
  have hb : ((|b| : ℤ) : ℝ) ≤ 32 * |v| + 1 / 2 := by
    push_cast
    have h1 : |(b : ℝ)| ≤ |(b : ℝ) - 32 * v| + |32 * v| := by
      have := abs_add ((b : ℝ) - 32 * v) (32 * v)
      simpa using this
    have h2 : |32 * v| = 32 * |v| := by rw [abs_mul]; norm_num
    linarith
  have ra : ((|a| : ℤ) : ℝ) < 33 := by linarith
  have rb : ((|b| : ℤ) : ℝ) < 33 := by linarith
  have rab : ((|a| + |b| : ℤ) : ℝ) < 47 := by push_cast; push_cast at ha hb; linarith
  have ia : |a| < 33 := by exact_mod_cast ra
  have ib : |b| < 33 := by exact_mod_cast rb
  have iab : |a| + |b| < 47 := by exact_mod_cast rab
  omega

/-- Witness for `mixcarr_outputs_fit`: the initialised table at index 4 with the
extreme sample values. -/
theorem mixcarr_outputs_fit_witness :
    (|initCost 4 * (-128)| ≤ 5888 ∧ |initSint 4 * (-128)| ≤ 5888 ∧
        |initCost 4 * 127 - initSint 4 * (-128)| ≤ 5888 ∧
        |initSint 4 * 127 + initCost 4 * (-128)| ≤ 5888) ∧
      toShort (initCost 4 * (-128)) = initCost 4 * (-128) ∧
      toShort (initSint 4 * (-128)) = initSint 4 * (-128) ∧
      toShort (initCost 4 * 127 - initSint 4 * (-128)) =
        initCost 4 * 127 - initSint 4 * (-128) ∧
      toShort (initSint 4 * 127 + initCost 4 * (-128)) =
        initSint 4 * 127 + initCost 4 * (-128) :=
  mixcarr_outputs_fit initCost initSint 4 (-128) 127 (-128)
    (fun j _ _ => initTable_bounds j) (by decide) (by decide) (by decide) (by decide)
    (by decide) (by decide) (by decide) (by decide)

theorem abs_cos_sub_cos_le (a b : ℝ) : |Real.cos a - Real.cos b| ≤ |a - b| := by
  rw [Real.cos_sub_cos, abs_mul, abs_mul]
  have h1 : |(-2 : ℝ)| = 2 := by norm_num
  have h2 := Real.abs_sin_le_one ((a + b) / 2)
  have h3 : |Real.sin ((a - b) / 2)| ≤ |a - b| / 2 := by
    have := Real.abs_sin_le_abs (x := (a - b) / 2)
    rwa [abs_div, abs_two] at this
  have h4 := abs_nonneg (Real.sin ((a - b) / 2))
  have h5 := abs_nonneg (Real.sin ((a + b) / 2))
  rw [h1]
  nlinarith

theorem abs_sin_sub_sin_le (a b : ℝ) : |Real.sin a - Real.sin b| ≤ |a - b| := by
  rw [Real.sin_sub_sin, abs_mul, abs_mul]
  have h1 : |(2 : ℝ)| = 2 := by norm_num
  have h2 := Real.abs_cos_le_one ((a + b) / 2)
  have h3 : |Real.sin ((a - b) / 2)| ≤ |a - b| / 2 := by
    have := Real.abs_sin_le_abs (x := (a - b) / 2)
    rwa [abs_div, abs_two] at this
  have h4 := abs_nonneg (Real.sin ((a - b) / 2))
  have h5 := abs_nonneg (Real.cos ((a + b) / 2))
  rw [h1]
  nlinarith

/-- The table angle `DPI/CDIV*i` is within `10^-15` of `2*π*i/32` for `i` in
`[0,32)`. -/
theorem table_angle_close (i : ℤ) (hi0 : 0 ≤ i) (hi1 : i < 32) :
    |(DPI : ℝ) / (CDIV : ℝ) * (i : ℝ) - 2 * Real.pi * (i : ℝ) / 32| ≤ 1 / 10 ^ 15 := by
  have hpl := Real.pi_gt_d20
  have hpu := Real.pi_lt_d20
  norm_num at hpl hpu
  have hD : ((DPI : ℚ) : ℝ) = 62831853071795864 / 10 ^ 16 := by
    simp [DPI]; norm_num
  have hC : ((CDIV : ℚ) : ℝ) = 32 := by simp [CDIV]
  have e : (DPI : ℝ) / (CDIV : ℝ) * (i : ℝ) - 2 * Real.pi * (i : ℝ) / 32
      = ((DPI : ℝ) - 2 * Real.pi) * ((i : ℝ) / 32) := by rw [hC]; ring
  have i0 : (0 : ℝ) ≤ (i : ℝ) / 32 := by
    have : (0 : ℝ) ≤ (i : ℝ) := by exact_mod_cast hi0
    positivity
  have i1 : (i : ℝ) / 32 ≤ 1 := by
    have : (i : ℝ) ≤ 32 := by exact_mod_cast (le_of_lt hi1)
    linarith
  have d0 : |(DPI : ℝ) - 2 * Real.pi| ≤ 1 / 10 ^ 15 := by
    rw [hD, abs_le]
    constructor <;> norm_num <;> linarith
  rw [e, abs_mul, abs_of_nonneg i0]
  have := abs_nonneg ((DPI : ℝ) - 2 * Real.pi)
  nlinarith

/-- C15: for every table index `i` in `[0,32)`, the table built on first use,
`cost[i] = floor(cos(DPI/CDIV*i)/CSCALE + 0.5)` and
`sint[i] = floor(sin(DPI/CDIV*i)/CSCALE + 0.5)` (the conversion to `short`
changes nothing), is within one quantization step of `32*cos(2*π*i/32)` and
`32*sin(2*π*i/32)`, with the real cosine and sine; against the code's own angle
`DPI/CDIV*i` it is within half a step. -/
theorem carrier_table_accuracy (i : ℤ) (hi0 : 0 ≤ i) (hi1 : i < 32) :
    initCost i = ⌊Real.cos ((DPI : ℝ) / (CDIV : ℝ) * (i : ℝ)) / (CSCALE : ℝ) + 0.5⌋ ∧
      initSint i = ⌊Real.sin ((DPI : ℝ) / (CDIV : ℝ) * (i : ℝ)) / (CSCALE : ℝ) + 0.5⌋ ∧
      |((initCost i : ℤ) : ℝ) - 32 * Real.cos (2 * Real.pi * (i : ℝ) / 32)| ≤ 1 ∧
      |((initSint i : ℤ) : ℝ) - 32 * Real.sin (2 * Real.pi * (i : ℝ) / 32)| ≤ 1 ∧
      |((initCost i : ℤ) : ℝ) - 32 * Real.cos ((DPI : ℝ) / (CDIV : ℝ) * (i : ℝ))| ≤ 1 / 2 ∧
      |((initSint i : ℤ) : ℝ) - 32 * Real.sin ((DPI : ℝ) / (CDIV : ℝ) * (i : ℝ))| ≤ 1 / 2 := by
  obtain ⟨c1, c2⟩ := quantize_spec (Real.cos ((DPI : ℝ) / (CDIV : ℝ) * (i : ℝ)))
    (Real.abs_cos_le_one _)
  obtain ⟨s1, s2⟩ := quantize_spec (Real.sin ((DPI : ℝ) / (CDIV : ℝ) * (i : ℝ)))
    (Real.abs_sin_le_one _)
  have hang := table_angle_close i hi0 hi1
  have hcl := abs_cos_sub_cos_le ((DPI : ℝ) / (CDIV : ℝ) * (i : ℝ)) (2 * Real.pi * (i : ℝ) / 32)
  have hsl := abs_sin_sub_sin_le ((DPI : ℝ) / (CDIV : ℝ) * (i : ℝ)) (2 * Real.pi * (i : ℝ) / 32)
  have hsmall : (1 : ℝ) / 10 ^ 15 ≤ 1 / 64 := by norm_num
  have ec : initCost i =
      ⌊Real.cos ((DPI : ℝ) / (CDIV : ℝ) * (i : ℝ)) / (CSCALE : ℝ) + 0.5⌋ := c1
  have es : initSint i =
      ⌊Real.sin ((DPI : ℝ) / (CDIV : ℝ) * (i : ℝ)) / (CSCALE : ℝ) + 0.5⌋ := s1
  refine ⟨ec, es, ?_, ?_, by rw [ec]; exact c2, by rw [es]; exact s2⟩
  · rw [ec]
    have h := abs_sub_le
      ((⌊Real.cos ((DPI : ℝ) / (CDIV : ℝ) * (i : ℝ)) / (CSCALE : ℝ) + 0.5⌋ : ℤ) : ℝ)
      (32 * Real.cos ((DPI : ℝ) / (CDIV : ℝ) * (i : ℝ)))
      (32 * Real.cos (2 * Real.pi * (i : ℝ) / 32))
    have h2 : |32 * Real.cos ((DPI : ℝ) / (CDIV : ℝ) * (i : ℝ))
        - 32 * Real.cos (2 * Real.pi * (i : ℝ) / 32)| ≤ 32 * (1 / 10 ^ 15) := by
      rw [← mul_sub, abs_mul]
      have : |(32 : ℝ)| = 32 := by norm_num
      rw [this]; linarith
    linarith
  · rw [es]
    have h := abs_sub_le
      ((⌊Real.sin ((DPI : ℝ) / (CDIV : ℝ) * (i : ℝ)) / (CSCALE : ℝ) + 0.5⌋ : ℤ) : ℝ)
      (32 * Real.sin ((DPI : ℝ) / (CDIV : ℝ) * (i : ℝ)))
      (32 * Real.sin (2 * Real.pi * (i : ℝ) / 32))
    have h2 : |32 * Real.sin ((DPI : ℝ) / (CDIV : ℝ) * (i : ℝ))
        - 32 * Real.sin (2 * Real.pi * (i : ℝ) / 32)| ≤ 32 * (1 / 10 ^ 15) := by
      rw [← mul_sub, abs_mul]
      have : |(32 : ℝ)| = 32 := by norm_num
      rw [this]; linarith
    linarith

/-- Witness for `carrier_table_accuracy`: the index 0, where `cost[0] = 32`. -/
theorem carrier_table_accuracy_witness :
    (initCost 0 = ⌊Real.cos ((DPI : ℝ) / (CDIV : ℝ) * ((0 : ℤ) : ℝ)) / (CSCALE : ℝ) + 0.5⌋ ∧
      initSint 0 = ⌊Real.sin ((DPI : ℝ) / (CDIV : ℝ) * ((0 : ℤ) : ℝ)) / (CSCALE : ℝ) + 0.5⌋ ∧
      |((initCost 0 : ℤ) : ℝ) - 32 * Real.cos (2 * Real.pi * ((0 : ℤ) : ℝ) / 32)| ≤ 1 ∧
      |((initSint 0 : ℤ) : ℝ) - 32 * Real.sin (2 * Real.pi * ((0 : ℤ) : ℝ) / 32)| ≤ 1 ∧
      |((initCost 0 : ℤ) : ℝ) - 32 * Real.cos ((DPI : ℝ) / (CDIV : ℝ) * ((0 : ℤ) : ℝ))| ≤ 1 / 2 ∧
      |((initSint 0 : ℤ) : ℝ) - 32 * Real.sin ((DPI : ℝ) / (CDIV : ℝ) * ((0 : ℤ) : ℝ))| ≤ 1 / 2) ∧
      initCost 0 = 32 :=
  ⟨carrier_table_accuracy 0 (by decide) (by decide), initCost_zero⟩

end Sdrcmn
